import Mathlib

/-!
Verification of the GeoRoute prototype core
(`src/georoute_react_prototype.jsx`).

The development shallowly embeds the dispatch-and-shortest-path core of the
prototype: the `MinHeap` priority queue, the `dijkstra` shortest-path engine,
the round-robin dispatcher and failure simulation inside `submitRequest`, and
the nearest-node resolution of `handleAutoDetect`.

Modelling conventions:
* JavaScript object maps (`dist`, `prev`, the graphs) become association lists
  with first-match lookup (`jget`) and replace-or-append assignment (`jset`),
  matching object key insertion order and uniqueness of keys.
* JavaScript numbers used as edge costs and distances are modelled as `ℕ`
  (edge costs in the repository are small non-negative integers); `Infinity`
  is `⊤ : WithTop ℕ`; a missing key (JS `undefined`) is `Option.none`.
  Comparisons against `undefined` are `false`, as in JavaScript.
* The unbounded `while (true)` loop of `dijkstra` and the `while (u)` path
  reconstruction loop run on explicit fuel; `DRes.timeout` marks fuel
  exhaustion (which, by the termination theorem, never happens at
  `fuelBound`).  Iterating over `graph[u]` when `u` is not a key throws a
  `TypeError` in JavaScript; the model returns `DRes.typeErr`.
* JavaScript truthiness of node identifiers matters: `null`, `undefined` and
  the empty string are falsy.  The model keeps this faithfully (`truthy`,
  and the explicit `""` tests in `chase`).
-/

namespace GeoRoute

/-- Node identifiers are JavaScript strings (object keys of the graph). -/
abbrev Node := String

/-- Heap entries are the `[priority, node]` arrays pushed by `dijkstra`;
`MinHeap` compares only index `0` (the priority). -/
abbrev Entry := ℕ × Node

/-! ## Association-list model of JavaScript objects -/

/-- Property access `m[k]`: first matching key, `undefined` (`none`) if the
key is absent. -/
def jget {β : Type} (m : List (Node × β)) (k : Node) : Option β :=
  match m with
  | [] => none
  | (k', v) :: t => if k' = k then some v else jget t k

/-- Property assignment `m[k] = v`: overwrite the value in place if the key
exists, otherwise append a new key at the end (JS insertion order). -/
def jset {β : Type} (m : List (Node × β)) (k : Node) (v : β) : List (Node × β) :=
  match m with
  | [] => [(k, v)]
  | (k', v') :: t => if k' = k then (k, v) :: t else (k', v') :: jset t k v

/-! ## MinHeap (lines 32–68 of the source)

The JS class stores its array in `this.heap`; the model works on that array
directly.  `_bubbleUp` and `_sinkDown` are `while` loops; the moved element
`el` is fixed over the loop, and the loop index strictly decreases
(respectively strictly increases), so fuel `h.length` is always sufficient. -/

/-- Model of `MinHeap._bubbleUp`: `el` sits at index `n`; swap it with its
parent while its priority is strictly smaller. -/
def bubbleUpAux : ℕ → List Entry → Entry → ℕ → List Entry
  | 0, h, _, _ => h
  | fuel+1, h, el, n =>
    if n = 0 then h
    else
      let parentN := (n + 1) / 2 - 1
      match h[parentN]? with
      | none => h
      | some parent =>
        if parent.1 ≤ el.1 then h
        else bubbleUpAux fuel ((h.set parentN el).set n parent) el parentN

/-- Model of `MinHeap.push`: append the item and bubble it up. -/
def heapPush (h : List Entry) (item : Entry) : List Entry :=
  bubbleUpAux (h.length + 1) (h ++ [item]) item h.length

/-- The value of the `swap` variable of `_sinkDown` after the first child
test: `child1N` when the first child's priority is strictly below `el`'s. -/
def sinkSwap1 (h : List Entry) (el : Entry) (n : ℕ) : Option ℕ :=
  match h[(n + 1) * 2 - 1]? with
  | none => none
  | some child1 => if child1.1 < el.1 then some ((n + 1) * 2 - 1) else none

/-- The value of the `swap` variable of `_sinkDown` after both child tests:
the second child is chosen when its priority is strictly below the current
comparison key (`el`'s priority, or the first child's if that one was
already chosen). -/
def sinkSwap (h : List Entry) (el : Entry) (n : ℕ) : Option ℕ :=
  match h[(n + 1) * 2]? with
  | none => sinkSwap1 h el n
  | some child2 =>
    if child2.1 <
        (match sinkSwap1 h el n with
         | none => el.1
         | some _ => (h[(n + 1) * 2 - 1]?.getD el).1) then
      some ((n + 1) * 2)
    else sinkSwap1 h el n

/-- Model of `MinHeap._sinkDown`: `el` sits at index `n`; swap it with the
child selected by `sinkSwap` while one is selected. -/
def sinkDownAux : ℕ → List Entry → Entry → ℕ → List Entry
  | 0, h, _, _ => h
  | fuel+1, h, el, n =>
    match sinkSwap h el n with
    | none => h
    | some sw =>
      match h[sw]? with
      | none => h
      | some swel => sinkDownAux fuel ((h.set n swel).set sw el) el sw

/-- Model of `MinHeap.pop`: return `null` (`none`) on the empty heap,
otherwise remove the root, move the last element to the root and sink it. -/
def heapPop : List Entry → Option (Entry × List Entry)
  | [] => none
  | top :: tl =>
    let endE := (top :: tl).getLast (by simp)
    let rest := (top :: tl).dropLast
    if rest.isEmpty then some (top, [])
    else some (top, sinkDownAux rest.length (rest.set 0 endE) endE 0)

/-! ## Graphs -/

/-- One outgoing edge record `{to, cost}` of the JS graphs.  The field `to`
is renamed `target` because `to` is a Lean keyword. -/
structure Edge where
  target : Node
  cost : ℕ
deriving DecidableEq

/-- A graph object: node id mapped to its ordered list of outgoing edges. -/
abbrev Graph := List (Node × List Edge)

/-- Key membership in the graph object. -/
def isKey (g : Graph) (u : Node) : Prop := (jget g u).isSome

instance (g : Graph) (u : Node) : Decidable (isKey g u) := by
  unfold isKey; infer_instance

/-- Every edge target appears as a key of the graph (the spec's graph
invariant; edge sources are keys by construction). -/
def Closed (g : Graph) : Prop :=
  ∀ u edges, jget g u = some edges → ∀ e ∈ edges, isKey g e.target

/-! ## dijkstra (lines 71–89 of the source) -/

/-- The mutable state of `dijkstra`'s main loop. -/
structure DState where
  dist : List (Node × WithTop ℕ)
  prev : List (Node × Option Node)
  pq : List Entry

/-- JS test `d > dist[u]` with `d : ℕ` and `dist[u]` possibly `undefined`:
comparisons with `undefined` are `false`. -/
def jsGT (d : ℕ) (x : Option (WithTop ℕ)) : Bool :=
  match x with
  | none => false
  | some du => decide (du < (d : WithTop ℕ))

/-- JS test `alt < dist[v]` with `alt : ℕ` and `dist[v]` possibly
`undefined`. -/
def jsLT (alt : ℕ) (x : Option (WithTop ℕ)) : Bool :=
  match x with
  | none => false
  | some dv => decide ((alt : WithTop ℕ) < dv)

/-- One step of the edge loop of `dijkstra`: relax edge `e` out of the popped
node `u` whose popped priority is `d` (the source computes
`alt = d + edge.cost`). -/
def relaxOne (u : Node) (d : ℕ) (s : DState) (e : Edge) : DState :=
  let alt := d + e.cost
  if jsLT alt (jget s.dist e.target) then
    { dist := jset s.dist e.target (alt : WithTop ℕ)
      prev := jset s.prev e.target (some u)
      pq := heapPush s.pq (alt, e.target) }
  else s

/-- The `for (const edge of graph[u])` loop. -/
def relaxEdges (u : Node) (d : ℕ) (edges : List Edge) (s : DState) : DState :=
  edges.foldl (relaxOne u d) s

/-- Outcome of the main loop: normal exit (`done`), a JS `TypeError` from
iterating `graph[u]` with `u` not a key, or fuel exhaustion. -/
inductive LoopOut where
  | timeout
  | typeErr
  | done (st : DState)

/-- The `while (true)` loop of `dijkstra`, one fuel unit per iteration. -/
def loopFuel (g : Graph) (dst : Node) : ℕ → DState → LoopOut
  | 0, _ => .timeout
  | fuel+1, st =>
    match heapPop st.pq with
    | none => .done st
    | some ((d, u), pq') =>
      let st' : DState := ⟨st.dist, st.prev, pq'⟩
      if jsGT d (jget st'.dist u) then loopFuel g dst fuel st'
      else if u = dst then .done st'
      else
        match jget g u with
        | none => .typeErr
        | some edges => loopFuel g dst fuel (relaxEdges u d edges st')

/-- The reconstruction loop `let u = dst; while (u) { path.unshift(u);
u = prev[u] }`.  The loop variable is falsy exactly on `null`
(`some none`), `undefined` (`none`) and the empty string.  Returns `none`
on fuel exhaustion (JS would loop forever). -/
def chase (pm : List (Node × Option Node)) : ℕ → Option (Option Node) → List Node →
    Option (List Node)
  | 0, u, acc =>
    match u with
    | some (some s) => if s = "" then some acc else none
    | _ => some acc
  | fuel+1, u, acc =>
    match u with
    | some (some s) => if s = "" then some acc else chase pm fuel (jget pm s) (s :: acc)
    | _ => some acc

/-- Result of a `dijkstra` call: `null`, or `{path, distance}` where the
distance field is `dist[dst]` (possibly `undefined` when `dst` is not a
key). -/
inductive DRes where
  | timeout
  | typeErr
  | null
  | found (path : List Node) (distance : Option (WithTop ℕ))
deriving DecidableEq

/-- The `dist` object after initialisation: every key of the graph is set
to `Infinity` (in key order), then `dist[src] = 0`. -/
def initDist (g : Graph) (src : Node) : List (Node × WithTop ℕ) :=
  jset ((g.map Prod.fst).foldl (fun m n => jset m n (⊤ : WithTop ℕ)) []) src
    ((0 : ℕ) : WithTop ℕ)

/-- The `prev` object after initialisation: every key of the graph is set
to `null`. -/
def initPrev (g : Graph) : List (Node × Option Node) :=
  (g.map Prod.fst).foldl (fun m n => jset m n (none : Option Node)) []

/-- The state of `dijkstra` just before entering the main loop:
`dist`/`prev` initialised and `[0, src]` pushed on the fresh heap. -/
def initState (g : Graph) (src : Node) : DState :=
  ⟨initDist g src, initPrev g, heapPush [] (0, src)⟩

/-- Model of `dijkstra(graph, src, dst)` with explicit fuel for the main
loop.  Initialisation follows the source: every key's distance is
`Infinity` and predecessor `null`, then `dist[src] = 0` and `[0, src]` is
pushed. -/
def dijkstra (g : Graph) (src dst : Node) (fuel : ℕ) : DRes :=
  match loopFuel g dst fuel (initState g src) with
  | .timeout => .timeout
  | .typeErr => .typeErr
  | .done st =>
    if jget st.dist dst = some ⊤ then .null
    else
      match chase st.prev (st.prev.length + 1) (some (some dst)) [] with
      | none => .timeout
      | some path => .found path (jget st.dist dst)

/-- Fuel that always suffices for the main loop: two more than the total
number of edge records in the graph (each node is processed at most once,
each processing pushes at most its out-degree many entries, and every
iteration consumes a pushed entry). -/
def fuelBound (g : Graph) : ℕ := 2 + (g.map (fun p => p.2.length)).sum

/-- `dijkstra` as called by the app: the canonical (sufficient) fuel. -/
def dijkstraRun (g : Graph) (src dst : Node) : DRes :=
  dijkstra g src dst (fuelBound g)

/-! ## Regional graphs and node coordinates (lines 92–133) -/

/-- Server 1's graph. -/
def graph1 : Graph :=
  [("A", [⟨"B", 1⟩, ⟨"C", 2⟩]),
   ("B", [⟨"A", 1⟩, ⟨"D", 2⟩]),
   ("C", [⟨"A", 2⟩, ⟨"F", 3⟩]),
   ("D", [⟨"B", 2⟩, ⟨"E", 2⟩]),
   ("E", [⟨"D", 2⟩, ⟨"G", 3⟩]),
   ("F", [⟨"C", 3⟩, ⟨"G", 1⟩]),
   ("G", [⟨"F", 1⟩, ⟨"E", 3⟩])]

/-- Server 2's graph (alternate weights). -/
def graph2 : Graph :=
  [("A", [⟨"B", 1⟩, ⟨"C", 3⟩]),
   ("B", [⟨"A", 1⟩, ⟨"D", 1⟩]),
   ("C", [⟨"A", 3⟩, ⟨"F", 2⟩]),
   ("D", [⟨"B", 1⟩, ⟨"E", 4⟩]),
   ("E", [⟨"D", 4⟩, ⟨"G", 1⟩]),
   ("F", [⟨"C", 2⟩, ⟨"G", 2⟩]),
   ("G", [⟨"F", 2⟩, ⟨"E", 1⟩])]

/-- Server 3's graph (different topology, with an isolated component). -/
def graph3 : Graph :=
  [("A", [⟨"C", 2⟩]),
   ("C", [⟨"A", 2⟩, ⟨"F", 2⟩]),
   ("F", [⟨"C", 2⟩, ⟨"G", 1⟩]),
   ("G", [⟨"F", 1⟩]),
   ("B", [⟨"D", 2⟩]),
   ("D", [⟨"B", 2⟩]),
   ("E", [])]

/-- `REGIONAL_GRAPHS`. -/
def REGIONAL_GRAPHS : List Graph := [graph1, graph2, graph3]

/-! ## submitRequest (lines 212–240) -/

/-- JS truthiness of the `fromNode`/`toNode` state: `null` and the empty
string are falsy. -/
def truthy : Option String → Bool
  | none => false
  | some s => s ≠ ""

/-- The request-level outcome of one `submitRequest` call, as logged by the
app. -/
inductive Outcome where
  | missingEndpoint
  | backendFailure (serverIndex : ℕ)
  | noRoute (serverIndex : ℕ)
  | routeFound (serverIndex : ℕ) (path : List Node) (distance : Option (WithTop ℕ))
  | engineCrash (serverIndex : ℕ)
deriving DecidableEq

/-- Result of one `submitRequest` call: the outcome, the new round-robin
counter, and a call-count probe for the shortest-path engine. -/
structure SubmitRes where
  outcome : Outcome
  counter : ℕ
  engineCalls : ℕ
deriving DecidableEq

/-- The dispatcher core of lines 215: `serverIndex = counter % k` and the
counter advances by one (`setRoundRobinState(s => s+1)`); the source
instantiates `k` with the backend count `3`. -/
def selectBackend (counter k : ℕ) : ℕ × ℕ := (counter % k, counter + 1)

/-- Model of `submitRequest` for one call.  `fromNode`/`toNode` are the
React state values; `draw` models the `Math.random()` value of the failure
draw and `p` the configured failure rate; the latency delay does not affect
the outcome and is not modelled.  The `engineCalls` field counts calls to
`dijkstra` (the spec's call-count probe). -/
def submitRequest (counter : ℕ) (fromNode toNode : Option String) (draw p : ℚ) :
    SubmitRes :=
  if truthy fromNode ∧ truthy toNode then
    match fromNode, toNode with
    | some f, some t =>
      let sel := selectBackend counter 3
      if draw < p then ⟨.backendFailure sel.1, sel.2, 0⟩
      else
        let graph := REGIONAL_GRAPHS.getD sel.1 []
        match dijkstraRun graph f t with
        | .null => ⟨.noRoute sel.1, sel.2, 1⟩
        | .found path dd => ⟨.routeFound sel.1 path dd, sel.2, 1⟩
        | _ => ⟨.engineCrash sel.1, sel.2, 1⟩
    | _, _ => ⟨.missingEndpoint, counter, 0⟩
  else ⟨.missingEndpoint, counter, 0⟩

/-- One request to feed `submitRequest` with. -/
structure Request where
  fromNode : Option String
  toNode : Option String
  draw : ℚ
  p : ℚ

/-- A request reaches dispatch exactly when both endpoints are truthy (the
guard on line 213 returns early otherwise). -/
def reachesDispatch (r : Request) : Bool :=
  truthy r.fromNode && truthy r.toNode

/-- Fold a sequence of `submitRequest` calls over the shared round-robin
counter, collecting outcomes. -/
def runSubmits (counter : ℕ) : List Request → List Outcome × ℕ
  | [] => ([], counter)
  | r :: rs =>
    let res := submitRequest counter r.fromNode r.toNode r.draw r.p
    let rest := runSubmits res.counter rs
    (res.outcome :: rest.1, rest.2)

/-! ## Nearest-node resolution (lines 246–251) -/

/-- A node's coordinate record from `NODE_COORDS`. -/
structure Coord where
  lat : ℚ
  lon : ℚ
deriving DecidableEq

/-- `NODE_COORDS` (coordinates are exact decimal fractions). -/
def NODE_COORDS : List (Node × Coord) :=
  [("A", ⟨-339249/10000, 184241/10000⟩),
   ("B", ⟨-262041/10000, 280473/10000⟩),
   ("C", ⟨-298579/10000, 310292/10000⟩),
   ("D", ⟨-257461/10000, 281881/10000⟩),
   ("E", ⟨-334608/10000, 229375/10000⟩),
   ("F", ⟨-305595/10000, 229375/10000⟩),
   ("G", ⟨-34, 25⟩)]

/-- Squared Euclidean distance in degree-space between a query coordinate
and a node coordinate.  The source compares `Math.hypot(lat-c.lat,
lon-c.lon)` values; since `hypot` is the square root of this quantity and
squaring is monotone on non-negative reals, comparing squared distances is
equivalent. -/
def sqDist (lat lon : ℚ) (c : Coord) : ℚ :=
  (lat - c.lat) ^ 2 + (lon - c.lon) ^ 2

/-- The nearest-node fold of `handleAutoDetect`: start from
`best = null, bestd = Infinity` and keep the strictly closer node, so the
first minimum in iteration order wins.  The accumulator keeps the squared
best distance (`none` is the initial `Infinity`, smaller than nothing). -/
def nearestNode (table : List (Node × Coord)) (lat lon : ℚ) : Option Node :=
  (table.foldl
    (fun (acc : Option (Node × ℚ)) p =>
      let d := sqDist lat lon p.2
      match acc with
      | none => some (p.1, d)
      | some (b, bestd) => if d < bestd then some (p.1, d) else some (b, bestd))
    none).map Prod.fst


/-! ## Lemmas about the association-list object model -/

theorem jget_jset_self {β : Type} (m : List (Node × β)) (k : Node) (v : β) :
    jget (jset m k v) k = some v := by
  induction m with
  | nil => simp [jget, jset]
  | cons h t ih =>
    obtain ⟨k', v'⟩ := h
    by_cases hk : k' = k
    · simp [jget, jset, hk]
    · simp [jget, jset, hk, ih]

theorem jget_jset_ne {β : Type} (m : List (Node × β)) (k k' : Node) (v : β)
    (h : k' ≠ k) : jget (jset m k v) k' = jget m k' := by
  induction m with
  | nil => simp [jget, jset, Ne.symm h]
  | cons hd t ih =>
    obtain ⟨k'', v''⟩ := hd
    by_cases hk : k'' = k
    · subst hk
      have hne : k'' ≠ k' := fun hh => h hh.symm
      simp [jget, jset, hne]
    · by_cases hk' : k'' = k'
      · simp [jget, jset, hk, hk', h]
      · simp [jget, jset, hk, hk', ih]

theorem jkeys_jset_mem {β : Type} (m : List (Node × β)) (k : Node) (v : β)
    (h : (jget m k).isSome) : (jset m k v).map Prod.fst = m.map Prod.fst := by
  induction m with
  | nil => simp [jget] at h
  | cons hd t ih =>
    obtain ⟨k', v'⟩ := hd
    by_cases hk : k' = k
    · simp [jset, hk]
    · simp [jget, hk] at h
      simp [jset, hk, ih h]

theorem jget_isSome_iff_mem {β : Type} (m : List (Node × β)) (k : Node) :
    (jget m k).isSome ↔ k ∈ m.map Prod.fst := by
  induction m with
  | nil => simp [jget]
  | cons hd t ih =>
    obtain ⟨k', v'⟩ := hd
    by_cases hk : k' = k
    · simp [jget, hk]
    · simp [jget, hk, ih, Ne.symm hk]

theorem jget_eq_none_of_not_mem {β : Type} (m : List (Node × β)) (k : Node)
    (h : k ∉ m.map Prod.fst) : jget m k = none := by
  have := (jget_isSome_iff_mem m k).not.mpr h
  cases hv : jget m k
  · rfl
  · rw [hv] at this; simp at this

/-- Lookup in the initialisation fold `keys.foldl (fun m n => jset m n v) m0`. -/
theorem jget_initFold {β : Type} (keys : List Node) (v : β) :
    ∀ (m0 : List (Node × β)) (k : Node),
      jget (keys.foldl (fun m n => jset m n v) m0) k =
        if k ∈ keys then some v else jget m0 k := by
  induction keys with
  | nil => intro m0 k; simp
  | cons a t ih =>
    intro m0 k
    by_cases hk : k = a
    · subst hk
      by_cases ht : k ∈ t
      · simp [List.foldl_cons, ih, ht]
      · simp [List.foldl_cons, ih, ht, jget_jset_self]
    · by_cases ht : k ∈ t
      · simp [List.foldl_cons, ih, ht, hk]
      · simp [List.foldl_cons, ih, ht, hk, jget_jset_ne _ _ _ _ hk]


/-! ## Directed paths and shortest distances (specification side) -/

/-- The outgoing edge list of `u` (empty when `u` is not a key). -/
def edgesOf (g : Graph) (u : Node) : List Edge := (jget g u).getD []

/-- `PathTo g src p v n`: `p` is a directed path in `g` from `src` to `v`
listing its nodes in order, and the costs of its edges sum to `n`. -/
inductive PathTo (g : Graph) (src : Node) : List Node → Node → ℕ → Prop
  | single : PathTo g src [src] src 0
  | snoc {p : List Node} {u : Node} {n : ℕ} (e : Edge) :
      PathTo g src p u n → e ∈ edgesOf g u →
      PathTo g src (p ++ [e.target]) e.target (n + e.cost)

/-- `dst` is reachable from `src` in `g`. -/
def Reaches (g : Graph) (src dst : Node) : Prop := ∃ p n, PathTo g src p dst n

theorem PathTo.ne_nil {g : Graph} {src : Node} {p : List Node} {v : Node} {n : ℕ}
    (h : PathTo g src p v n) : p ≠ [] := by
  cases h <;> simp

/-- The set of weights of paths from `src` to `v`. -/
def weightSet (g : Graph) (src v : Node) : Set ℕ := {n | ∃ p, PathTo g src p v n}

/-- The least path weight from `src` to `v`, `⊤` if `v` is unreachable. -/
noncomputable def delta (g : Graph) (src v : Node) : WithTop ℕ :=
  haveI := Classical.propDecidable (Reaches g src v)
  if Reaches g src v then ((sInf (weightSet g src v) : ℕ) : WithTop ℕ) else ⊤

theorem delta_le_weight {g : Graph} {src v : Node} {p : List Node} {n : ℕ}
    (h : PathTo g src p v n) : delta g src v ≤ (n : WithTop ℕ) := by
  have hr : Reaches g src v := ⟨p, n, h⟩
  rw [delta, if_pos hr]
  exact_mod_cast Nat.sInf_le (show n ∈ weightSet g src v from ⟨p, h⟩)

theorem delta_attained {g : Graph} {src v : Node} (h : Reaches g src v) :
    ∃ p n, PathTo g src p v n ∧ delta g src v = (n : WithTop ℕ) := by
  have hne : (weightSet g src v).Nonempty := by
    obtain ⟨p, n, hp⟩ := h
    exact ⟨n, p, hp⟩
  obtain ⟨p, hp⟩ := Nat.sInf_mem hne
  exact ⟨p, _, hp, by rw [delta, if_pos h]⟩

theorem delta_lt_top_iff {g : Graph} {src v : Node} :
    delta g src v < ⊤ ↔ Reaches g src v := by
  constructor
  · intro h
    by_contra hr
    rw [delta, if_neg hr] at h
    exact lt_irrefl _ h
  · intro hr
    rw [delta, if_pos hr]
    exact WithTop.coe_lt_top _

theorem delta_src_self {g : Graph} {src : Node} : delta g src src = 0 := by
  have h0 : delta g src src ≤ ((0 : ℕ) : WithTop ℕ) := delta_le_weight PathTo.single
  simpa using le_antisymm (by simpa using h0) (zero_le _)

theorem delta_triangle {g : Graph} {src u : Node} (e : Edge) (he : e ∈ edgesOf g u) :
    delta g src e.target ≤ delta g src u + (e.cost : WithTop ℕ) := by
  by_cases hr : Reaches g src u
  · obtain ⟨p, n, hp, hd⟩ := delta_attained hr
    calc delta g src e.target ≤ ((n + e.cost : ℕ) : WithTop ℕ) :=
          delta_le_weight (hp.snoc e he)
    _ = delta g src u + (e.cost : WithTop ℕ) := by rw [hd]; push_cast; ring
  · have : delta g src u = ⊤ := by rw [delta, if_neg hr]
    rw [this]
    simp

/-- Any path from a settled start into the unsettled region crosses the
frontier: some settled `x` has an edge to an unsettled node, and the prefix
up to that edge costs no more than the whole path. -/
theorem path_frontier {g : Graph} {src : Node} {S : List Node}
    {p : List Node} {v : Node} {n : ℕ}
    (h : PathTo g src p v n) (hv : v ∉ S) (hsrc : src ∈ S) :
    ∃ (x : Node) (e : Edge) (p₁ : List Node) (n₁ : ℕ),
      x ∈ S ∧ e.target ∉ S ∧ e ∈ edgesOf g x ∧ PathTo g src p₁ x n₁ ∧
        n₁ + e.cost ≤ n := by
  induction h with
  | single => exact absurd hsrc hv
  | @snoc p u m e hp he ih =>
    by_cases hu : u ∈ S
    · exact ⟨u, e, p, m, hu, hv, he, hp, le_rfl⟩
    · obtain ⟨x, e', p₁, n₁, hx, ht, he', hp₁, hle⟩ := ih hu
      exact ⟨x, e', p₁, n₁, hx, ht, he', hp₁, hle.trans (Nat.le_add_right _ _)⟩


/-! ## Heap-order lemmas for MinHeap -/

/-- Priority stored at index `i` (`0` out of range; all uses are guarded). -/
def prio (l : List Entry) (i : ℕ) : ℕ := (l[i]?.getD (0, "")).1

/-- `j` is a child index of `i` in the implicit binary tree. -/
def ChildOf (i j : ℕ) : Prop := j = 2 * i + 1 ∨ j = 2 * i + 2

/-- The binary min-heap order on priorities: every child's priority is at
least its parent's. -/
def HeapOrd (l : List Entry) : Prop :=
  ∀ i j, ChildOf i j → j < l.length → prio l i ≤ prio l j

theorem heapOrd_nil : HeapOrd [] := by
  intro i j _ hj
  simp at hj

theorem heapOrd_singleton (e : Entry) : HeapOrd [e] := by
  intro i j hc hj
  rcases hc with h | h <;> simp at hj <;> omega

theorem childOf_parent {j : ℕ} (h : 0 < j) : ChildOf ((j + 1) / 2 - 1) j := by
  rcases Nat.even_or_odd j with ⟨m, hm⟩ | ⟨m, hm⟩
  · right; omega
  · left; omega

theorem childOf_unique {i j : ℕ} (h : ChildOf i j) : i = (j + 1) / 2 - 1 := by
  rcases h with h | h <;> omega

theorem childOf_lt {i j : ℕ} (h : ChildOf i j) : i < j := by
  rcases h with h | h <;> omega

theorem not_childOf_zero {i : ℕ} : ¬ ChildOf i 0 := by
  rintro (h | h) <;> omega

theorem getElem?_some_lt_length {α : Type} {l : List α} {n : ℕ} {a : α}
    (h : l[n]? = some a) : n < l.length := by
  rcases Nat.lt_or_ge n l.length with hlt | hge
  · exact hlt
  · rw [List.getElem?_eq_none hge] at h
    cases h

theorem prio_of_getElem? {l : List Entry} {i : ℕ} {e : Entry}
    (h : l[i]? = some e) : prio l i = e.1 := by
  simp [prio, h]

theorem prio_set_self {l : List Entry} {i : ℕ} (a : Entry) (h : i < l.length) :
    prio (l.set i a) i = a.1 := by
  simp [prio, List.getElem?_set_eq_of_lt a h]

theorem prio_set_ne {l : List Entry} {i j : ℕ} (a : Entry) (h : i ≠ j) :
    prio (l.set i a) j = prio l j := by
  simp [prio, List.getElem?_set_ne h]

theorem set_get_self {α : Type} : ∀ (l : List α) (j : ℕ) (b : α),
    l[j]? = some b → l.set j b = l
  | [], j, b, h => by simp [jget] at h
  | x :: t, 0, b, h => by
    simp at h
    simp [h]
  | x :: t, j+1, b, h => by
    simp at h
    simp [set_get_self t j b h]

/-- Swapping the entries at two distinct positions is a permutation. -/
theorem swap_perm {α : Type} : ∀ (l : List α) (i j : ℕ) (a b : α), i < j →
    l[i]? = some a → l[j]? = some b → ((l.set i b).set j a).Perm l
  | [], i, j, a, b, _, hi, _ => by simp at hi
  | x :: t, i, 0, a, b, hij, hi, hj => by omega
  | x :: t, 0, j+1, a, b, _, hi, hj => by
    simp at hi
    simp only [List.set_cons_zero, List.set_cons_succ]
    rw [hi]
    have hj' : t[j]? = some b := by simpa using hj
    have hjl : j < t.length := getElem?_some_lt_length hj'
    have hdecomp : t = t.take j ++ b :: t.drop (j + 1) := by
      conv_lhs => rw [← set_get_self t j b hj']
      exact List.set_eq_take_cons_drop b hjl
    have hset : t.set j a = t.take j ++ a :: t.drop (j + 1) :=
      List.set_eq_take_cons_drop a hjl
    rw [hset]
    have step1 : List.Perm (b :: (t.take j ++ a :: t.drop (j + 1)))
        (b :: (a :: (t.take j ++ t.drop (j + 1)))) :=
      List.Perm.cons b List.perm_middle
    have step2 : List.Perm (b :: (a :: (t.take j ++ t.drop (j + 1))))
        (a :: (b :: (t.take j ++ t.drop (j + 1)))) := List.Perm.swap a b _
    have step3 : List.Perm (a :: (b :: (t.take j ++ t.drop (j + 1))))
        (a :: (t.take j ++ b :: t.drop (j + 1))) :=
      List.Perm.cons a List.perm_middle.symm
    have := (step1.trans step2).trans step3
    rw [← hdecomp] at this
    exact this
  | x :: t, i+1, j+1, a, b, hij, hi, hj => by
    simp only [List.set_cons_succ]
    exact .cons x (swap_perm t i j a b (by omega) (by simpa using hi) (by simpa using hj))


theorem bubbleUpAux_succ (fuel : ℕ) (l : List Entry) (el : Entry) (n : ℕ) :
    bubbleUpAux (fuel + 1) l el n =
      if n = 0 then l
      else
        match l[(n + 1) / 2 - 1]? with
        | none => l
        | some parent =>
          if parent.1 ≤ el.1 then l
          else bubbleUpAux fuel ((l.set ((n + 1) / 2 - 1) el).set n parent) el
            ((n + 1) / 2 - 1) := rfl

/-- Core correctness of `_bubbleUp`: if the heap order holds everywhere
except possibly on the edge into position `n` (which holds `el`), and the
children of `n` already dominate `n`'s parent, then bubbling up restores
the heap order.  Fuel `n + 1` suffices since the index strictly
decreases. -/
theorem bubbleUpAux_heapOrd : ∀ (fuel : ℕ) (l : List Entry) (el : Entry) (n : ℕ),
    l[n]? = some el →
    (∀ i j, ChildOf i j → j < l.length → j ≠ n → prio l i ≤ prio l j) →
    (0 < n → ∀ j, ChildOf n j → j < l.length → prio l ((n + 1) / 2 - 1) ≤ prio l j) →
    n + 1 ≤ fuel →
    HeapOrd (bubbleUpAux fuel l el n) := by
  intro fuel
  induction fuel with
  | zero => intro l el n _ _ _ hf; omega
  | succ fuel ih =>
    intro l el n hel hA hB hf
    have hnlen : n < l.length := getElem?_some_lt_length hel
    rw [bubbleUpAux_succ]
    by_cases hn : n = 0
    · subst hn
      rw [if_pos rfl]
      intro i j hc hj
      rcases Nat.eq_zero_or_pos j with rfl | hj0
      · exact absurd hc not_childOf_zero
      · exact hA i j hc hj (by omega)
    · rw [if_neg hn]
      have hplt : (n + 1) / 2 - 1 < n := by omega
      have hplen : (n + 1) / 2 - 1 < l.length := lt_trans hplt hnlen
      have hpar : l[(n + 1) / 2 - 1]? = some (l.get ⟨(n + 1) / 2 - 1, hplen⟩) :=
        List.getElem?_eq_getElem hplen
      rw [hpar]
      dsimp only
      have hprioP : prio l ((n + 1) / 2 - 1) = (l.get ⟨(n + 1) / 2 - 1, hplen⟩).1 :=
        prio_of_getElem? hpar
      have hprioN : prio l n = el.1 := prio_of_getElem? hel
      by_cases hcmp : (l.get ⟨(n + 1) / 2 - 1, hplen⟩).1 ≤ el.1
      · rw [if_pos hcmp]
        intro i j hc hj
        by_cases hjn : j = n
        · subst hjn
          have hi : i = (j + 1) / 2 - 1 := childOf_unique hc
          rw [hi, hprioN, hprioP]
          exact hcmp
        · exact hA i j hc hj hjn
      · rw [if_neg hcmp]
        have hlt : el.1 < (l.get ⟨(n + 1) / 2 - 1, hplen⟩).1 := Nat.lt_of_not_le hcmp
        have hpn : (n + 1) / 2 - 1 ≠ n := Nat.ne_of_lt hplt
        have hel' : ((l.set ((n + 1) / 2 - 1) el).set n
            (l.get ⟨(n + 1) / 2 - 1, hplen⟩))[(n + 1) / 2 - 1]? = some el := by
          rw [List.getElem?_set_ne (fun hh => hpn hh.symm),
            List.getElem?_set_eq_of_lt el hplen]
        have hlen' : ((l.set ((n + 1) / 2 - 1) el).set n
            (l.get ⟨(n + 1) / 2 - 1, hplen⟩)).length = l.length := by
          simp
        have prioP' : prio ((l.set ((n + 1) / 2 - 1) el).set n
            (l.get ⟨(n + 1) / 2 - 1, hplen⟩)) ((n + 1) / 2 - 1) = el.1 := by
          rw [prio_set_ne _ (fun hh => hpn hh.symm), prio_set_self el hplen]
        have prioN' : prio ((l.set ((n + 1) / 2 - 1) el).set n
            (l.get ⟨(n + 1) / 2 - 1, hplen⟩)) n = (l.get ⟨(n + 1) / 2 - 1, hplen⟩).1 :=
          prio_set_self _ (by simpa using hnlen)
        have prioO : ∀ x, x ≠ (n + 1) / 2 - 1 → x ≠ n →
            prio ((l.set ((n + 1) / 2 - 1) el).set n
              (l.get ⟨(n + 1) / 2 - 1, hplen⟩)) x = prio l x := by
          intro x h1 h2
          rw [prio_set_ne _ (Ne.symm h2), prio_set_ne _ (Ne.symm h1)]
        apply ih _ el _ hel'
        · -- heap order except on the edge into the parent position
          intro i j hc hj hne
          rw [hlen'] at hj
          by_cases hjn : j = n
          · have hi : i = (n + 1) / 2 - 1 := by
              have := childOf_unique hc
              omega
            rw [hjn, hi, prioP', prioN']
            exact le_of_lt hlt
          · by_cases hin : i = n
            · have h0 : 0 < n := by omega
              have hchild := hB h0 j (hin ▸ hc) hj
              rw [hin, prioN', prioO j hne hjn, ← hprioP]
              exact hchild
            · by_cases hip : i = (n + 1) / 2 - 1
              · have h1 : prio l i ≤ prio l j := hA i j hc hj hjn
                rw [hip, prioP', prioO j hne hjn]
                calc el.1 ≤ (l.get ⟨(n + 1) / 2 - 1, hplen⟩).1 := le_of_lt hlt
                _ = prio l ((n + 1) / 2 - 1) := hprioP.symm
                _ ≤ prio l j := hip ▸ h1
              · rw [prioO i hip hin, prioO j hne hjn]
                exact hA i j hc hj hjn
        · -- the children of the parent position dominate the grandparent
          intro hp0 j hc hj
          rw [hlen'] at hj
          have hpplt : (((n + 1) / 2 - 1) + 1) / 2 - 1 < (n + 1) / 2 - 1 := by omega
          have hppp : (((n + 1) / 2 - 1) + 1) / 2 - 1 ≠ (n + 1) / 2 - 1 :=
            Nat.ne_of_lt hpplt
          have hppn : (((n + 1) / 2 - 1) + 1) / 2 - 1 ≠ n := by omega
          have hedge : ChildOf ((((n + 1) / 2 - 1) + 1) / 2 - 1) ((n + 1) / 2 - 1) :=
            childOf_parent hp0
          have h1 : prio l ((((n + 1) / 2 - 1) + 1) / 2 - 1) ≤ prio l ((n + 1) / 2 - 1) :=
            hA _ _ hedge hplen hpn
          rw [prioO _ hppp hppn]
          by_cases hjn : j = n
          · subst hjn
            rw [prioN', ← hprioP]
            exact h1
          · have hjp : j ≠ (n + 1) / 2 - 1 := by
              have := childOf_lt hc
              omega
            rw [prioO j hjp hjn]
            have h2 : prio l ((n + 1) / 2 - 1) ≤ prio l j := hA _ j hc hj hjn
            exact le_trans h1 h2
        · omega


/-- `push` preserves the heap order. -/
theorem heapPush_heapOrd {h : List Entry} (hh : HeapOrd h) (item : Entry) :
    HeapOrd (heapPush h item) := by
  apply bubbleUpAux_heapOrd (h.length + 1) (h ++ [item]) item h.length
  · exact List.getElem?_concat_length h item
  · intro i j hc hj hne
    have hjlen : j < h.length := by
      simp at hj
      omega
    have hilen : i < h.length := lt_trans (childOf_lt hc) hjlen
    have hi : prio (h ++ [item]) i = prio h i := by
      simp [prio, List.getElem?_append_left hilen]
    have hjp : prio (h ++ [item]) j = prio h j := by
      simp [prio, List.getElem?_append_left hjlen]
    rw [hi, hjp]
    exact hh i j hc hjlen
  · intro h0 j hc hj
    exfalso
    have := childOf_lt hc
    simp at hj
    rcases hc with h1 | h1 <;> omega
  · omega

/-- `_bubbleUp` permutes the array. -/
theorem bubbleUpAux_perm : ∀ (fuel : ℕ) (l : List Entry) (el : Entry) (n : ℕ),
    l[n]? = some el → (bubbleUpAux fuel l el n).Perm l := by
  intro fuel
  induction fuel with
  | zero => intro l el n _; exact List.Perm.refl l
  | succ fuel ih =>
    intro l el n hel
    rw [bubbleUpAux_succ]
    by_cases hn : n = 0
    · rw [if_pos hn]
    · rw [if_neg hn]
      have hnlen : n < l.length := getElem?_some_lt_length hel
      have hplt : (n + 1) / 2 - 1 < n := by omega
      have hplen : (n + 1) / 2 - 1 < l.length := lt_trans hplt hnlen
      have hpar : l[(n + 1) / 2 - 1]? = some (l.get ⟨(n + 1) / 2 - 1, hplen⟩) :=
        List.getElem?_eq_getElem hplen
      rw [hpar]
      dsimp only
      by_cases hcmp : (l.get ⟨(n + 1) / 2 - 1, hplen⟩).1 ≤ el.1
      · rw [if_pos hcmp]
      · rw [if_neg hcmp]
        have hel' : ((l.set ((n + 1) / 2 - 1) el).set n
            (l.get ⟨(n + 1) / 2 - 1, hplen⟩))[(n + 1) / 2 - 1]? = some el := by
          rw [List.getElem?_set_ne (fun hh => (Nat.ne_of_lt hplt) hh.symm),
            List.getElem?_set_eq_of_lt el hplen]
        exact (ih _ el _ hel').trans
          (swap_perm l ((n + 1) / 2 - 1) n (l.get ⟨(n + 1) / 2 - 1, hplen⟩) el
            hplt hpar hel)

/-- The contents of `push h item` are `item :: h` up to permutation. -/
theorem heapPush_perm (h : List Entry) (item : Entry) :
    (heapPush h item).Perm (item :: h) := by
  have h1 : (heapPush h item).Perm (h ++ [item]) :=
    bubbleUpAux_perm _ _ _ _ (List.getElem?_concat_length h item)
  exact h1.trans (List.perm_append_singleton item h)


theorem sinkDownAux_succ (fuel : ℕ) (l : List Entry) (el : Entry) (n : ℕ) :
    sinkDownAux (fuel + 1) l el n =
      match sinkSwap l el n with
      | none => l
      | some sw =>
        match l[sw]? with
        | none => l
        | some swel => sinkDownAux fuel ((l.set n swel).set sw el) el sw := rfl

theorem sinkSwap1_none {l : List Entry} {el : Entry} {n : ℕ}
    (h : sinkSwap1 l el n = none) :
    ∀ cel, l[2 * n + 1]? = some cel → el.1 ≤ cel.1 := by
  intro cel hcel
  rw [sinkSwap1, show (n + 1) * 2 - 1 = 2 * n + 1 by omega, hcel] at h
  dsimp only at h
  split at h
  · exact absurd h (by simp)
  · omega

theorem sinkSwap1_some {l : List Entry} {el : Entry} {n sw : ℕ}
    (h : sinkSwap1 l el n = some sw) :
    sw = 2 * n + 1 ∧ ∃ cel, l[2 * n + 1]? = some cel ∧ cel.1 < el.1 := by
  rw [sinkSwap1, show (n + 1) * 2 - 1 = 2 * n + 1 by omega] at h
  cases hcel : l[2 * n + 1]? with
  | none => rw [hcel] at h; exact absurd h (by simp)
  | some c =>
    rw [hcel] at h
    dsimp only at h
    split at h
    · rename_i hlt
      exact ⟨(Option.some.inj h).symm, c, rfl, hlt⟩
    · exact absurd h (by simp)

/-- When `_sinkDown` selects no child, every existing child's priority is at
least `el`'s. -/
theorem sinkSwap_none {l : List Entry} {el : Entry} {n : ℕ}
    (h : sinkSwap l el n = none) :
    ∀ j cel, (j = 2 * n + 1 ∨ j = 2 * n + 2) → l[j]? = some cel →
      el.1 ≤ cel.1 := by
  intro j cel hj hcel
  rw [sinkSwap, show (n + 1) * 2 = 2 * n + 2 by omega] at h
  cases h2 : l[2 * n + 2]? with
  | none =>
    rw [h2] at h
    rcases hj with rfl | rfl
    · exact sinkSwap1_none h cel hcel
    · rw [hcel] at h2; cases h2
  | some child2 =>
    rw [h2] at h
    dsimp only at h
    split at h
    · exact absurd h (by simp)
    · rename_i hge
      rcases hj with rfl | rfl
      · exact sinkSwap1_none h cel hcel
      · rw [h] at hge
        dsimp only at hge
        rw [hcel] at h2
        cases h2
        omega

/-- When `_sinkDown` selects child `sw`, that child exists, its priority is
strictly below `el`'s, and it is no larger than the sibling's. -/
theorem sinkSwap_some {l : List Entry} {el : Entry} {n sw : ℕ}
    (h : sinkSwap l el n = some sw) :
    (sw = 2 * n + 1 ∨ sw = 2 * n + 2) ∧
      ∃ swel, l[sw]? = some swel ∧ swel.1 < el.1 ∧
        ∀ j cel, (j = 2 * n + 1 ∨ j = 2 * n + 2) → j ≠ sw →
          l[j]? = some cel → swel.1 ≤ cel.1 := by
  rw [sinkSwap, show (n + 1) * 2 = 2 * n + 2 by omega] at h
  cases h2 : l[2 * n + 2]? with
  | none =>
    rw [h2] at h
    obtain ⟨rfl, cel, hcel, hlt⟩ := sinkSwap1_some h
    refine ⟨Or.inl rfl, cel, hcel, hlt, ?_⟩
    intro j cel' hj hne hcel'
    rcases hj with rfl | rfl
    · exact absurd rfl hne
    · rw [hcel'] at h2; cases h2
  | some child2 =>
    rw [h2] at h
    dsimp only at h
    split at h
    · rename_i hlt2
      -- the second child was chosen
      have hsw : sw = 2 * n + 2 := (Option.some.inj h).symm
      subst hsw
      cases hs1 : sinkSwap1 l el n with
      | none =>
        rw [hs1] at hlt2
        dsimp only at hlt2
        refine ⟨Or.inr rfl, child2, h2, hlt2, ?_⟩
        intro j cel' hj hne hcel'
        rcases hj with rfl | rfl
        · have := sinkSwap1_none hs1 cel' hcel'
          omega
        · exact absurd rfl hne
      | some sw1 =>
        rw [hs1] at hlt2
        dsimp only at hlt2
        obtain ⟨rfl, cel, hcel, hlt⟩ := sinkSwap1_some hs1
        rw [show 2 * n + 2 - 1 = 2 * n + 1 by omega, hcel] at hlt2
        simp only [Option.getD_some] at hlt2
        refine ⟨Or.inr rfl, child2, h2, lt_trans hlt2 hlt, ?_⟩
        intro j cel' hj hne hcel'
        rcases hj with rfl | rfl
        · rw [hcel'] at hcel
          cases hcel
          omega
        · exact absurd rfl hne
    · rename_i hge2
      -- the first child stays chosen
      obtain ⟨rfl, cel, hcel, hlt⟩ := sinkSwap1_some h
      rw [h] at hge2
      dsimp only at hge2
      rw [show 2 * n + 2 - 1 = 2 * n + 1 by omega, hcel] at hge2
      simp only [Option.getD_some] at hge2
      refine ⟨Or.inl rfl, cel, hcel, hlt, ?_⟩
      intro j cel' hj hne hcel'
      rcases hj with rfl | rfl
      · exact absurd rfl hne
      · rw [hcel'] at h2
        cases h2
        omega


/-- Core correctness of `_sinkDown`: if the heap order holds everywhere
except possibly on the edges out of position `n` (which holds `el`), and the
children of `n` dominate `n`'s parent, then sinking restores the heap
order.  Fuel `l.length - n` suffices since the index strictly increases. -/
theorem sinkDownAux_heapOrd : ∀ (fuel : ℕ) (l : List Entry) (el : Entry) (n : ℕ),
    l[n]? = some el →
    (∀ i j, ChildOf i j → j < l.length → i ≠ n → prio l i ≤ prio l j) →
    (0 < n → ∀ j, ChildOf n j → j < l.length → prio l ((n + 1) / 2 - 1) ≤ prio l j) →
    l.length - n ≤ fuel →
    HeapOrd (sinkDownAux fuel l el n) := by
  intro fuel
  induction fuel with
  | zero =>
    intro l el n hel _ _ hf
    have := getElem?_some_lt_length hel
    omega
  | succ fuel ih =>
    intro l el n hel hA hB hf
    have hnlen : n < l.length := getElem?_some_lt_length hel
    rw [sinkDownAux_succ]
    cases hsw : sinkSwap l el n with
    | none =>
      intro i j hc hj
      by_cases hin : i = n
      · have hc' : ChildOf n j := hin ▸ hc
        obtain ⟨cel, hcel⟩ : ∃ cel, l[j]? = some cel :=
          ⟨l.get ⟨j, hj⟩, List.getElem?_eq_getElem hj⟩
        have hle := sinkSwap_none hsw j cel hc' hcel
        rw [hin, prio_of_getElem? hel, prio_of_getElem? hcel]
        exact hle
      · exact hA i j hc hj hin
    | some sw =>
      obtain ⟨hsw12, swel, hswel, hlt, hsib⟩ := sinkSwap_some hsw
      dsimp only
      rw [hswel]
      dsimp only
      have hswlen : sw < l.length := getElem?_some_lt_length hswel
      have hnsw : n < sw := by rcases hsw12 with rfl | rfl <;> omega
      have hlen' : ((l.set n swel).set sw el).length = l.length := by simp
      have hel' : ((l.set n swel).set sw el)[sw]? = some el :=
        List.getElem?_set_eq_of_lt el (by simpa using hswlen)
      have pN : prio ((l.set n swel).set sw el) n = swel.1 := by
        rw [prio_set_ne _ (Nat.ne_of_lt hnsw).symm, prio_set_self swel hnlen]
      have pSW : prio ((l.set n swel).set sw el) sw = el.1 :=
        prio_set_self el (by simpa using hswlen)
      have pO : ∀ x, x ≠ n → x ≠ sw →
          prio ((l.set n swel).set sw el) x = prio l x := by
        intro x h1 h2
        rw [prio_set_ne _ (Ne.symm h2), prio_set_ne _ (Ne.symm h1)]
      apply ih _ _ sw hel'
      · intro i j hc hj hisw
        rw [hlen'] at hj
        by_cases hin : i = n
        · have hc' : ChildOf n j := hin ▸ hc
          by_cases hjsw : j = sw
          · rw [hin, hjsw, pN, pSW]
            exact le_of_lt hlt
          · have hjn : j ≠ n := Nat.ne_of_gt (childOf_lt hc')
            obtain ⟨cel, hcel⟩ : ∃ cel, l[j]? = some cel :=
              ⟨l.get ⟨j, hj⟩, List.getElem?_eq_getElem hj⟩
            have hle := hsib j cel hc' hjsw hcel
            rw [hin, pN, pO j hjn hjsw, prio_of_getElem? hcel]
            exact hle
        · by_cases hjn : j = n
          · have h0 : 0 < n := by
              have := childOf_lt hc
              omega
            have hcn : ChildOf n sw := hsw12
            have hpar := hB h0 sw hcn hswlen
            have hi : i = (n + 1) / 2 - 1 := by
              have := childOf_unique hc
              omega
            have hipar : i ≠ sw := by omega
            rw [hjn, pN, pO i hin hipar, hi, ← prio_of_getElem? hswel]
            exact hpar
          · by_cases hjsw : j = sw
            · exfalso
              apply hin
              have := childOf_unique hc
              rcases hsw12 with h' | h' <;> omega
            · rw [pO i hin hisw, pO j hjn hjsw]
              exact hA i j hc hj hin
      · intro hsw0 j hc hj
        rw [hlen'] at hj
        have hpar_sw : (sw + 1) / 2 - 1 = n := by
          rcases hsw12 with rfl | rfl <;> omega
        have hjgt : sw < j := childOf_lt hc
        have hjn : j ≠ n := by omega
        have hjsw : j ≠ sw := by omega
        rw [hpar_sw, pN, pO j hjn hjsw, ← prio_of_getElem? hswel]
        exact hA sw j hc hj (Nat.ne_of_gt hnsw)
      · rw [hlen']
        omega

/-- `_sinkDown` permutes the array. -/
theorem sinkDownAux_perm : ∀ (fuel : ℕ) (l : List Entry) (el : Entry) (n : ℕ),
    l[n]? = some el → (sinkDownAux fuel l el n).Perm l := by
  intro fuel
  induction fuel with
  | zero => intro l el n _; exact List.Perm.refl l
  | succ fuel ih =>
    intro l el n hel
    rw [sinkDownAux_succ]
    cases hsw : sinkSwap l el n with
    | none => exact List.Perm.refl l
    | some sw =>
      obtain ⟨hsw12, swel, hswel, -, -⟩ := sinkSwap_some hsw
      dsimp only
      rw [hswel]
      dsimp only
      have hswlen : sw < l.length := getElem?_some_lt_length hswel
      have hnsw : n < sw := by rcases hsw12 with rfl | rfl <;> omega
      have hel' : ((l.set n swel).set sw el)[sw]? = some el :=
        List.getElem?_set_eq_of_lt el (by simpa using hswlen)
      exact (ih _ _ sw hel').trans (swap_perm l n sw el swel hnsw hel hswel)


theorem getElem?_dropLast {α : Type} (l : List α) (i : ℕ) (h : i < l.length - 1) :
    l.dropLast[i]? = l[i]? := by
  rw [List.getElem?_eq_getElem (by simp; omega),
    List.getElem?_eq_getElem (show i < l.length by omega)]
  congr 1
  exact List.getElem_dropLast l i (by simp; omega)

/-- In a heap-ordered array the root priority is minimal. -/
theorem heapOrd_root_min {l : List Entry} (h : HeapOrd l) :
    ∀ j, j < l.length → prio l 0 ≤ prio l j := by
  intro j
  induction j using Nat.strong_induction_on with
  | _ j ih =>
    intro hj
    rcases Nat.eq_zero_or_pos j with rfl | hj0
    · exact le_rfl
    · have hc : ChildOf ((j + 1) / 2 - 1) j := childOf_parent hj0
      have hplt : (j + 1) / 2 - 1 < j := by omega
      exact le_trans (ih _ hplt (lt_trans hplt hj)) (h _ j hc hj)

theorem heapPop_none_iff (h : List Entry) : heapPop h = none ↔ h = [] := by
  cases h with
  | nil => simp [heapPop]
  | cons top tl =>
    simp only [heapPop]
    split <;> simp

theorem heapPop_fst {h : List Entry} {e : Entry} {h' : List Entry}
    (hp : heapPop h = some (e, h')) : h[0]? = some e := by
  cases h with
  | nil => simp [heapPop] at hp
  | cons top tl =>
    simp only [heapPop] at hp
    split at hp <;> simp_all

/-- `pop` preserves the heap order. -/
theorem heapPop_heapOrd {h : List Entry} (hh : HeapOrd h) {e : Entry}
    {h' : List Entry} (hp : heapPop h = some (e, h')) : HeapOrd h' := by
  cases h with
  | nil => simp [heapPop] at hp
  | cons top tl =>
    simp only [heapPop] at hp
    split at hp
    · obtain ⟨-, rfl⟩ := Prod.mk.injEq .. ▸ (Option.some.inj hp)
      exact heapOrd_nil
    · rename_i hne
      obtain ⟨-, rfl⟩ := Prod.mk.injEq .. ▸ (Option.some.inj hp)
      have hrest : ¬ (top :: tl).dropLast.isEmpty = true := hne
      have hrlen : 0 < (top :: tl).dropLast.length := by
        cases hdl : (top :: tl).dropLast with
        | nil => rw [hdl] at hrest; simp at hrest
        | cons a b => simp
      apply sinkDownAux_heapOrd
      · exact List.getElem?_set_eq_of_lt _ (by simpa using hrlen)
      · intro i j hc hj hi0
        have hjlen : j < (top :: tl).dropLast.length := by simpa using hj
        have hij : i < j := childOf_lt hc
        have hj0 : j ≠ 0 := by omega
        have hpi : prio ((top :: tl).dropLast.set 0 ((top :: tl).getLast (by simp))) i =
            prio (top :: tl) i := by
          rw [prio_set_ne _ (Ne.symm hi0)]
          unfold prio
          rw [getElem?_dropLast _ i (by simp at hjlen ⊢; omega)]
        have hpj : prio ((top :: tl).dropLast.set 0 ((top :: tl).getLast (by simp))) j =
            prio (top :: tl) j := by
          rw [prio_set_ne _ (Ne.symm hj0)]
          unfold prio
          rw [getElem?_dropLast _ j (by simp at hjlen ⊢; omega)]
        rw [hpi, hpj]
        exact hh i j hc (by simp at hjlen ⊢; omega)
      · intro h0; omega
      · simp


/-- The contents of a successful `pop` are the original heap minus the
returned root. -/
theorem heapPop_perm {h : List Entry} {e : Entry} {h' : List Entry}
    (hp : heapPop h = some (e, h')) : h.Perm (e :: h') := by
  cases h with
  | nil => simp [heapPop] at hp
  | cons top tl =>
    simp only [heapPop] at hp
    split at hp
    · rename_i hemp
      obtain ⟨rfl, rfl⟩ := Prod.mk.injEq .. ▸ (Option.some.inj hp)
      have : tl = [] := by
        cases tl with
        | nil => rfl
        | cons a b => simp at hemp
      subst this
      exact List.Perm.refl _
    · rename_i hne
      obtain ⟨rfl, rfl⟩ := Prod.mk.injEq .. ▸ (Option.some.inj hp)
      cases tl with
      | nil => simp at hne
      | cons a b =>
        have hlast : (top :: a :: b).getLast (by simp) = (a :: b).getLast (by simp) :=
          List.getLast_cons (by simp)
        have hdl : (top :: a :: b).dropLast = top :: (a :: b).dropLast := rfl
        have hperm1 : (sinkDownAux (top :: a :: b).dropLast.length
            ((top :: a :: b).dropLast.set 0 ((top :: a :: b).getLast (by simp)))
            ((top :: a :: b).getLast (by simp)) 0).Perm
            ((top :: a :: b).dropLast.set 0 ((top :: a :: b).getLast (by simp))) := by
          apply sinkDownAux_perm
          exact List.getElem?_set_eq_of_lt _ (by simp)
        have hset : (top :: a :: b).dropLast.set 0 ((top :: a :: b).getLast (by simp)) =
            (top :: a :: b).getLast (by simp) :: (a :: b).dropLast := by
          rw [hdl]
          rfl
        have p1 : (sinkDownAux (top :: a :: b).dropLast.length
            ((top :: a :: b).dropLast.set 0 ((top :: a :: b).getLast (by simp)))
            ((top :: a :: b).getLast (by simp)) 0).Perm
            ((top :: a :: b).getLast (by simp) :: (a :: b).dropLast) :=
          hset ▸ hperm1
        have p2 : ((a :: b).dropLast ++ [(a :: b).getLast (by simp)]).Perm
            ((a :: b).getLast (by simp) :: (a :: b).dropLast) :=
          List.perm_append_singleton _ _
        have p3 : (a :: b).Perm ((top :: a :: b).getLast (by simp) :: (a :: b).dropLast) := by
          rw [hlast]
          conv_lhs => rw [← List.dropLast_concat_getLast (l := a :: b) (by simp)]
          exact p2
        exact (List.Perm.cons top p3).trans (List.Perm.cons top p1).symm

/-- A successful `pop` returns an entry of minimal priority. -/
theorem heapPop_min {h : List Entry} (hh : HeapOrd h) {e : Entry}
    {h' : List Entry} (hp : heapPop h = some (e, h')) :
    ∀ x ∈ h, e.1 ≤ x.1 := by
  intro x hx
  obtain ⟨i, hi, hxi⟩ := List.mem_iff_getElem.mp hx
  have h0 : prio h 0 = e.1 := prio_of_getElem? (heapPop_fst hp)
  have hix : prio h i = x.1 := by
    rw [prio_of_getElem? (List.getElem?_eq_getElem hi), hxi]
  rw [← h0, ← hix]
  exact heapOrd_root_min hh i hi


/-! ## Round-robin selection lemmas -/

/-- `N` consecutive backend selections starting from counter `c0`. -/
def selectionSeq (c0 k : ℕ) : ℕ → List ℕ
  | 0 => []
  | N+1 => (selectBackend c0 k).1 :: selectionSeq (selectBackend c0 k).2 k N

theorem selectionSeq_eq_map (k : ℕ) : ∀ (N c0 : ℕ),
    selectionSeq c0 k N = (List.range N).map (fun i => (c0 + i) % k) := by
  intro N
  induction N with
  | zero => intro c0; rfl
  | succ N ih =>
    intro c0
    rw [List.range_succ_eq_map, List.map_cons, List.map_map]
    show (c0 % k) :: selectionSeq (c0 + 1) k N = _
    rw [ih (c0 + 1)]
    congr 1
    refine List.map_congr_left fun a ha => ?_
    simp only [Function.comp_apply, Nat.succ_eq_add_one]
    congr 1
    omega

/-- In any window of `k` consecutive counter values, each backend index is
selected exactly once. -/
theorem countP_range_window {k j : ℕ} (hk : 0 < k) (hj : j < k) (c0 : ℕ) :
    (List.range k).countP (fun i => (c0 + i) % k == j) = 1 := by
  have hinj : ∀ x ∈ List.range k, ∀ y ∈ List.range k,
      (c0 + x) % k = (c0 + y) % k → x = y := by
    intro x hx y hy hxy
    have hm : Nat.ModEq k (c0 + x) (c0 + y) := hxy
    have h2 : Nat.ModEq k x y := Nat.ModEq.add_left_cancel rfl hm
    have h3 : x % k = y % k := h2
    rw [List.mem_range] at hx hy
    rwa [Nat.mod_eq_of_lt hx, Nat.mod_eq_of_lt hy] at h3
  have hnodup : ((List.range k).map (fun i => (c0 + i) % k)).Nodup :=
    (List.nodup_range k).map_on hinj
  have hsub : (List.range k).map (fun i => (c0 + i) % k) ⊆ List.range k := by
    intro x hx
    obtain ⟨i, -, rfl⟩ := List.mem_map.mp hx
    exact List.mem_range.mpr (Nat.mod_lt _ hk)
  have hperm : ((List.range k).map (fun i => (c0 + i) % k)).Perm (List.range k) := by
    apply List.Subperm.perm_of_length_le
    · exact List.subperm_of_subset hnodup hsub
    · simp
  have hcount : ((List.range k).map (fun i => (c0 + i) % k)).count j =
      (List.range k).count j := hperm.count_eq j
  have hrange : (List.range k).count j = 1 :=
    List.count_eq_one_of_mem (List.nodup_range k) (List.mem_range.mpr hj)
  calc (List.range k).countP (fun i => (c0 + i) % k == j)
      = ((List.range k).map (fun i => (c0 + i) % k)).countP (· == j) := by
        rw [List.countP_map]
        rfl
    _ = ((List.range k).map (fun i => (c0 + i) % k)).count j := rfl
    _ = 1 := hcount.trans hrange

theorem countP_range_add_window {k j : ℕ} (hk : 0 < k) (hj : j < k) (c0 N : ℕ) :
    (List.range (N + k)).countP (fun i => (c0 + i) % k == j) =
      (List.range N).countP (fun i => (c0 + i) % k == j) + 1 := by
  rw [List.range_add, List.countP_append, List.countP_map]
  congr 1
  have : ((fun i => (c0 + i) % k == j) ∘ (N + ·)) =
      (fun i => ((c0 + N) + i) % k == j) := by
    funext i
    simp only [Function.comp_apply]
    congr 2
    omega
  rw [this]
  exact countP_range_window hk hj (c0 + N)

/-- Floor/ceiling fairness of the cyclic selection counts. -/
theorem countP_range_floor_ceil {k j : ℕ} (hk : 0 < k) (hj : j < k) :
    ∀ (N c0 : ℕ), (List.range N).countP (fun i => (c0 + i) % k == j) = N / k ∨
      (List.range N).countP (fun i => (c0 + i) % k == j) = (N + k - 1) / k := by
  intro N
  induction N using Nat.strong_induction_on with
  | _ N ih =>
    intro c0
    by_cases hNk : N < k
    · have hsplit : (List.range k).countP (fun i => (c0 + i) % k == j) =
          (List.range N).countP (fun i => (c0 + i) % k == j) +
          ((List.range (k - N)).map (N + ·)).countP (fun i => (c0 + i) % k == j) := by
        rw [← List.countP_append, ← List.range_add,
          show N + (k - N) = k by omega]
      have hle : (List.range N).countP (fun i => (c0 + i) % k == j) ≤ 1 := by
        have := countP_range_window hk hj c0
        omega
      rcases Nat.eq_zero_or_pos ((List.range N).countP (fun i => (c0 + i) % k == j))
        with h0 | h1
      · left
        rw [h0, Nat.div_eq_of_lt hNk]
      · right
        have hcp : (List.range N).countP (fun i => (c0 + i) % k == j) = 1 := by omega
        have hN0 : N ≠ 0 := by
          rintro rfl
          simp at hcp
        have : (N + k - 1) / k = 1 := by
          apply Nat.div_eq_of_lt_le <;> omega
        rw [hcp, this]
    · obtain ⟨M, rfl⟩ : ∃ M, N = M + k := ⟨N - k, by omega⟩
      rw [countP_range_add_window hk hj]
      rcases ih M (by omega) c0 with h | h
      · left
        rw [h, Nat.add_div_right M hk]
      · right
        rw [h, show M + k + k - 1 = (M + k - 1) + k by omega,
          Nat.add_div_right _ hk]


/-! ## Claim C3: round-robin selection -/

/-- Claim C3: `SelectBackend` with backend count `k` returns the current
counter value modulo `k` and then increments the shared counter by exactly
one; for `N` consecutive selections the `i`-th returned index is
`(counter mod k + i) mod k` — the cyclic sequence starting from the
counter's initial value mod `k` — and each index `j < k` appears
`⌊N/k⌋` or `⌈N/k⌉` times. -/
theorem C3_selectBackend_roundRobin (k : ℕ) (hk : 0 < k) :
    (∀ c, selectBackend c k = (c % k, c + 1)) ∧
    (∀ c0 N i, i < N →
      (selectionSeq c0 k N)[i]? = some ((c0 % k + i) % k)) ∧
    (∀ c0 N j, j < k →
      (selectionSeq c0 k N).count j = N / k ∨
      (selectionSeq c0 k N).count j = (N + k - 1) / k) := by
  refine ⟨fun c => rfl, ?_, ?_⟩
  · intro c0 N i hi
    rw [selectionSeq_eq_map, List.getElem?_map,
      List.getElem?_range hi, Nat.mod_add_mod]
    rfl
  · intro c0 N j hj
    rw [selectionSeq_eq_map]
    have hcount : ((List.range N).map (fun i => (c0 + i) % k)).count j =
        (List.range N).countP (fun i => (c0 + i) % k == j) := by
      show ((List.range N).map (fun i => (c0 + i) % k)).countP (· == j) = _
      rw [List.countP_map]
      rfl
    rw [hcount]
    exact countP_range_floor_ceil hk hj N c0

theorem C3_witness :
    selectBackend 7 3 = (1, 8) ∧
    (selectionSeq 7 3 8)[2]? = some ((7 % 3 + 2) % 3) ∧
    ((selectionSeq 7 3 8).count 1 = 8 / 3 ∨
      (selectionSeq 7 3 8).count 1 = (8 + 3 - 1) / 3) := by
  obtain ⟨h1, h2, h3⟩ := C3_selectBackend_roundRobin 3 (by decide)
  exact ⟨h1 7, h2 7 8 2 (by decide), h3 7 8 1 (by decide)⟩


/-! ## Claims C4 and C5: failure simulation and counter monotonicity -/

/-- Claim C4: when the failure draw is below the configured failure rate,
`submitRequest` returns `BackendFailure` without invoking the engine
(`engineCalls = 0`); in particular with failure rate `1.0` every call with
both endpoints present fails this way, since `Math.random() ∈ [0, 1)`. -/
theorem C4_failure_skips_engine (counter : ℕ) (f t : String)
    (hf : f ≠ "") (ht : t ≠ "") :
    (∀ draw p : ℚ, draw < p →
      submitRequest counter (some f) (some t) draw p =
        ⟨.backendFailure (counter % 3), counter + 1, 0⟩) ∧
    (∀ draw : ℚ, 0 ≤ draw → draw < 1 →
      submitRequest counter (some f) (some t) draw 1 =
        ⟨.backendFailure (counter % 3), counter + 1, 0⟩) := by
  constructor
  · intro draw p hd
    simp [submitRequest, truthy, hf, ht, selectBackend, hd]
  · intro draw h0 h1
    simp [submitRequest, truthy, hf, ht, selectBackend, h1]

theorem C4_witness :
    submitRequest 4 (some "A") (some "G") (1/2) (3/4) =
      ⟨.backendFailure (4 % 3), 4 + 1, 0⟩ ∧
    submitRequest 4 (some "A") (some "G") (1/2) 1 =
      ⟨.backendFailure (4 % 3), 4 + 1, 0⟩ := by
  obtain ⟨h1, h2⟩ := C4_failure_skips_engine 4 "A" "G" (by decide) (by decide)
  exact ⟨h1 (1/2) (3/4) (by norm_num), h2 (1/2) (by norm_num) (by norm_num)⟩

/-- Claim C5: a `submitRequest` call that reaches dispatch advances the
shared counter by exactly one regardless of outcome; a call rejected by the
missing-endpoint guard leaves the counter unchanged, performs no backend
selection and never calls the engine; consequently `N` calls advance the
counter by exactly the number of calls that reach dispatch. -/
theorem C5_counter_monotonic :
    (∀ (counter : ℕ) (f t : Option String) (draw p : ℚ),
      (truthy f && truthy t) = true →
        (submitRequest counter f t draw p).counter = counter + 1) ∧
    (∀ (counter : ℕ) (f t : Option String) (draw p : ℚ),
      (truthy f && truthy t) = false →
        submitRequest counter f t draw p = ⟨.missingEndpoint, counter, 0⟩) ∧
    (∀ (counter : ℕ) (reqs : List Request),
      (runSubmits counter reqs).2 = counter + reqs.countP reachesDispatch) := by
  have hsingle : ∀ (counter : ℕ) (f t : Option String) (draw p : ℚ),
      (truthy f && truthy t) = true →
        (submitRequest counter f t draw p).counter = counter + 1 := by
    intro counter f t draw p h
    rw [Bool.and_eq_true] at h
    obtain ⟨hf, ht⟩ := h
    cases f with
    | none => simp [truthy] at hf
    | some fs =>
      cases t with
      | none => simp [truthy] at ht
      | some ts =>
        simp only [truthy, ne_eq, decide_eq_true_eq] at hf ht
        simp only [submitRequest, truthy, hf, ht]
        rw [if_pos ⟨by simpa [truthy] using hf, by simpa [truthy] using ht⟩]
        by_cases hd : draw < p
        · simp [selectBackend, hd]
        · simp only [selectBackend, if_neg hd]
          cases dijkstraRun ((REGIONAL_GRAPHS.getD (counter % 3) [])) fs ts <;> rfl
  have hmiss : ∀ (counter : ℕ) (f t : Option String) (draw p : ℚ),
      (truthy f && truthy t) = false →
        submitRequest counter f t draw p = ⟨.missingEndpoint, counter, 0⟩ := by
    intro counter f t draw p h
    cases f with
    | none => simp [submitRequest, truthy]
    | some fs =>
      cases t with
      | none => simp [submitRequest, truthy]
      | some ts =>
        have hor : fs = "" ∨ ts = "" := by
          by_contra hcon
          push_neg at hcon
          simp [truthy, hcon.1, hcon.2] at h
        rcases hor with h' | h'
        · simp [submitRequest, truthy, h']
        · simp [submitRequest, truthy, h']
  refine ⟨hsingle, hmiss, ?_⟩
  intro counter reqs
  induction reqs generalizing counter with
  | nil => simp [runSubmits]
  | cons r rs ih =>
    rw [runSubmits]
    cases hreach : reachesDispatch r with
    | true =>
      have hc := hsingle counter r.fromNode r.toNode r.draw r.p hreach
      rw [List.countP_cons_of_pos _ _ hreach]
      dsimp only
      rw [ih, hc]
      omega
    | false =>
      have hc := hmiss counter r.fromNode r.toNode r.draw r.p hreach
      rw [List.countP_cons_of_neg _ _ (by simp [hreach])]
      dsimp only
      rw [ih, hc]


theorem C5_witness :
    (submitRequest 2 (some "A") (some "G") (1/2) 0).counter = 2 + 1 ∧
    submitRequest 2 none (some "G") (1/2) 0 = ⟨.missingEndpoint, 2, 0⟩ ∧
    (runSubmits 0 [⟨some "A", some "G", 1/2, 0⟩, ⟨some "", some "G", 1/2, 0⟩]).2 =
      0 + ([⟨some "A", some "G", 1/2, 0⟩,
            (⟨some "", some "G", 1/2, 0⟩ : Request)].countP reachesDispatch) := by
  obtain ⟨h1, h2, h3⟩ := C5_counter_monotonic
  exact ⟨h1 2 (some "A") (some "G") (1/2) 0 (by decide),
    h2 2 none (some "G") (1/2) 0 (by decide), h3 0 _⟩

/-! ## Claim C7: concrete scenario on Server 1's graph -/

/-- Claim C7: on Server 1's graph, `dijkstra(graph, 'A', 'G')` returns
`Found` with path `[A, C, F, G]` and distance `6`. -/
theorem C7_scenario1 :
    dijkstraRun graph1 "A" "G" =
      .found ["A", "C", "F", "G"] (some ((6 : ℕ) : WithTop ℕ)) := by
  decide

/-! ## Claim C2: unknown endpoints (code bug) -/

/-- Claim C2 (failing behaviour): the engine has no `UnknownNode` error.
With a known `src` and unknown `dst` it returns a bogus
`Found(path = [dst], distance = undefined)` — neither `NotFound` nor a
request-level error — and with an unknown `src` (different from `dst`) it
throws an uncaught `TypeError` while iterating `graph[src]`. -/
theorem C2_unknownNode_bug :
    isKey graph1 "A" ∧ ¬ isKey graph1 "Z" ∧
    dijkstraRun graph1 "A" "Z" = .found ["Z"] none ∧
    dijkstraRun graph1 "Z" "A" = .typeErr := by
  refine ⟨by decide, by decide, by decide, by decide⟩


/-! ## Claims C1 and C6: correctness statements and the empty-string
counterexamples -/

/-- Claim C1, formalised: on the given graph and endpoints, `dijkstra`
returns `null` exactly when `dst` is unreachable from `src`, and otherwise
returns a directed path from `src` to `dst` of minimal total edge cost,
together with that cost. -/
def C1Statement (g : Graph) (src dst : Node) : Prop :=
  (dijkstraRun g src dst = .null ↔ ¬ Reaches g src dst) ∧
  (Reaches g src dst →
    ∃ p n, dijkstraRun g src dst = .found p (some ((n : ℕ) : WithTop ℕ)) ∧
      PathTo g src p dst n ∧ ∀ q m, PathTo g src q dst m → n ≤ m)

/-- Every path starts at the source node. -/
theorem PathTo.head_eq {g : Graph} {src : Node} {p : List Node} {v : Node}
    {n : ℕ} (h : PathTo g src p v n) : p.head? = some src := by
  induction h with
  | single => rfl
  | @snoc p u m e hp he ih =>
    cases p with
    | nil => exact absurd rfl hp.ne_nil
    | cons a t => simpa using ih

/-- A one-node path starts at its own single node. -/
theorem pathTo_singleton {g : Graph} {src x v : Node} {n : ℕ}
    (h : PathTo g src [x] v n) : src = x := by
  have := h.head_eq
  simp at this
  exact this.symm

/-- The counterexample graph for claim C1: a two-node graph whose keys
include the empty string (a legal JavaScript object key). -/
def gCE : Graph := [("", [⟨"B", 1⟩]), ("B", [⟨"", 1⟩])]

/-- Claim C1 is falsified by the empty-string node id: on `gCE` (which is
closed, has distinct keys and non-negative costs, and contains both
endpoints) the node `""` is falsy in JavaScript, so the reconstruction loop
`while (u)` stops before prepending the source and the returned path
`["B"]` is not a path from `""` to `"B"`. -/
theorem C1_counterexample :
    Closed gCE ∧ isKey gCE "" ∧ isKey gCE "B" ∧ (gCE.map Prod.fst).Nodup ∧
    ¬ C1Statement gCE "" "B" := by
  refine ⟨?_, by decide, by decide, by decide, ?_⟩
  · intro u edges hu e he
    by_cases h1 : "" = u
    · cases h1
      simp [jget, gCE] at hu
      subst hu
      simp at he
      subst he
      decide
    · by_cases h2 : "B" = u
      · cases h2
        simp [jget, gCE] at hu
        subst hu
        simp at he
        subst he
        decide
      · simp [jget, gCE, h1, h2] at hu
  · rintro ⟨-, h2⟩
    have hreach : Reaches gCE "" "B" := by
      refine ⟨["", "B"], 0 + 1, ?_⟩
      have hbase : PathTo gCE "" [""] "" 0 := PathTo.single
      have hmem : (⟨"B", 1⟩ : Edge) ∈ edgesOf gCE "" := by
        simp [edgesOf, jget, gCE]
      exact hbase.snoc (e := ⟨"B", 1⟩) hmem
    obtain ⟨p, n, heq, hpath, -⟩ := h2 hreach
    have hrun : dijkstraRun gCE "" "B" = .found ["B"] (some ((1 : ℕ) : WithTop ℕ)) := by
      decide
    rw [hrun] at heq
    have hp : p = ["B"] := by
      cases heq
      rfl
    subst hp
    exact absurd (pathTo_singleton hpath) (by decide)


/-- Claim C6 is falsified by the empty-string node id: on the one-node
graph whose only key is `""`, `dijkstra('', '')` computes distance `0` but
the reconstruction loop `while (u)` never runs (the empty string is falsy),
so the returned path is `[]` instead of `[""]`. -/
theorem C6_counterexample :
    isKey [("", ([] : List Edge))] "" ∧
    dijkstraRun [("", ([] : List Edge))] "" "" =
      .found [] (some ((0 : ℕ) : WithTop ℕ)) ∧
    dijkstraRun [("", ([] : List Edge))] "" "" ≠
      .found [""] (some ((0 : ℕ) : WithTop ℕ)) := by
  refine ⟨by decide, by decide, by decide⟩

/-! ## Claim C8: nearest-node resolution -/

/-- The inner fold of `handleAutoDetect`, starting from a non-`Infinity`
accumulator: the result is either a strictly closer table entry (the
first one among minima) or the unchanged accumulator, which every table
entry fails to strictly beat. -/
theorem nearestNode_go (lat lon : ℚ) :
    ∀ (l : List (Node × Coord)) (b : Node) (bd : ℚ),
    (∃ (i : ℕ) (hi : i < l.length),
      l.foldl (fun (acc : Option (Node × ℚ)) p =>
        let d := sqDist lat lon p.2
        match acc with
        | none => some (p.1, d)
        | some (b, bestd) => if d < bestd then some (p.1, d) else some (b, bestd))
        (some (b, bd)) =
          some ((l.get ⟨i, hi⟩).1, sqDist lat lon (l.get ⟨i, hi⟩).2) ∧
      sqDist lat lon (l.get ⟨i, hi⟩).2 < bd ∧
      (∀ j (hj : j < l.length),
        sqDist lat lon (l.get ⟨i, hi⟩).2 ≤ sqDist lat lon (l.get ⟨j, hj⟩).2) ∧
      (∀ j (hj : j < l.length), j < i →
        sqDist lat lon (l.get ⟨i, hi⟩).2 < sqDist lat lon (l.get ⟨j, hj⟩).2)) ∨
    (l.foldl (fun (acc : Option (Node × ℚ)) p =>
        let d := sqDist lat lon p.2
        match acc with
        | none => some (p.1, d)
        | some (b, bestd) => if d < bestd then some (p.1, d) else some (b, bestd))
        (some (b, bd)) = some (b, bd) ∧
      ∀ j (hj : j < l.length), bd ≤ sqDist lat lon (l.get ⟨j, hj⟩).2) := by
  intro l
  induction l with
  | nil =>
    intro b bd
    right
    constructor
    · rfl
    · intro j hj
      simp at hj
  | cons p t ih =>
    intro b bd
    by_cases hd : sqDist lat lon p.2 < bd
    · rw [List.foldl_cons]
      dsimp only
      rw [if_pos hd]
      rcases ih p.1 (sqDist lat lon p.2) with ⟨i, hi, heq, hlt, hall, hfirst⟩ | ⟨heq, hall⟩
      · left
        refine ⟨i + 1, by simpa using Nat.succ_lt_succ hi, by simpa using heq, ?_, ?_, ?_⟩
        · exact lt_trans hlt hd
        · intro j hj
          cases j with
          | zero => exact le_of_lt (by simpa using hlt)
          | succ j => simpa using hall j (by simpa using hj)
        · intro j hj hji
          cases j with
          | zero => simpa using hlt
          | succ j => simpa using hfirst j (by simpa using hj) (by omega)
      · left
        refine ⟨0, by simp, by simpa using heq, hd, ?_, ?_⟩
        · intro j hj
          cases j with
          | zero => simp
          | succ j => simpa using hall j (by simpa using hj)
        · intro j hj hji
          omega
    · rw [List.foldl_cons]
      dsimp only
      rw [if_neg hd]
      rcases ih b bd with ⟨i, hi, heq, hlt, hall, hfirst⟩ | ⟨heq, hall⟩
      · left
        refine ⟨i + 1, by simpa using Nat.succ_lt_succ hi, by simpa using heq, hlt, ?_, ?_⟩
        · intro j hj
          cases j with
          | zero =>
            simp only [List.get]
            exact le_trans (le_of_lt hlt) (not_lt.mp hd)
          | succ j => simpa using hall j (by simpa using hj)
        · intro j hj hji
          cases j with
          | zero =>
            simp only [List.get]
            exact lt_of_lt_of_le hlt (not_lt.mp hd)
          | succ j => simpa using hfirst j (by simpa using hj) (by omega)
      · right
        refine ⟨heq, ?_⟩
        intro j hj
        cases j with
        | zero => simpa using not_lt.mp hd
        | succ j => simpa using hall j (by simpa using hj)


/-- The nearest-node fold returns the first table entry minimising the
squared degree-space distance. -/
theorem nearestNode_spec (table : List (Node × Coord)) (lat lon : ℚ)
    (hne : table ≠ []) :
    ∃ (i : ℕ) (hi : i < table.length),
      nearestNode table lat lon = some (table.get ⟨i, hi⟩).1 ∧
      (∀ j (hj : j < table.length),
        sqDist lat lon (table.get ⟨i, hi⟩).2 ≤ sqDist lat lon (table.get ⟨j, hj⟩).2) ∧
      (∀ j (hj : j < table.length), j < i →
        sqDist lat lon (table.get ⟨i, hi⟩).2 < sqDist lat lon (table.get ⟨j, hj⟩).2) := by
  cases table with
  | nil => exact absurd rfl hne
  | cons p t =>
    rw [nearestNode, List.foldl_cons]
    dsimp only
    rcases nearestNode_go lat lon t p.1 (sqDist lat lon p.2) with
      ⟨i, hi, heq, hlt, hall, hfirst⟩ | ⟨heq, hall⟩
    · refine ⟨i + 1, by simpa using Nat.succ_lt_succ hi, ?_, ?_, ?_⟩
      · rw [heq]
        rfl
      · intro j hj
        cases j with
        | zero => exact le_of_lt (by simpa using hlt)
        | succ j => simpa using hall j (by simpa using hj)
      · intro j hj hji
        cases j with
        | zero => simpa using hlt
        | succ j => simpa using hfirst j (by simpa using hj) (by omega)
    · refine ⟨0, by simp, ?_, ?_, ?_⟩
      · rw [heq]
        rfl
      · intro j hj
        cases j with
        | zero => simp
        | succ j => simpa using hall j (by simpa using hj)
      · intro j hj hji
        omega

/-- Claim C8: for every supplied coordinate, the nearest-node resolution of
`handleAutoDetect` returns the table node minimising the Euclidean distance
in degree-space (the square root of `sqDist`, which is what `Math.hypot`
computes), with ties broken in favour of the earlier node in the iteration
order of the coordinate table. -/
theorem C8_nearest_euclidean (table : List (Node × Coord)) (lat lon : ℚ)
    (hne : table ≠ []) :
    ∃ (i : ℕ) (hi : i < table.length),
      nearestNode table lat lon = some (table.get ⟨i, hi⟩).1 ∧
      (∀ j (hj : j < table.length),
        Real.sqrt ((sqDist lat lon (table.get ⟨i, hi⟩).2 : ℚ) : ℝ) ≤
          Real.sqrt ((sqDist lat lon (table.get ⟨j, hj⟩).2 : ℚ) : ℝ)) ∧
      (∀ j (hj : j < table.length), j < i →
        Real.sqrt ((sqDist lat lon (table.get ⟨i, hi⟩).2 : ℚ) : ℝ) <
          Real.sqrt ((sqDist lat lon (table.get ⟨j, hj⟩).2 : ℚ) : ℝ)) := by
  obtain ⟨i, hi, heq, hall, hfirst⟩ := nearestNode_spec table lat lon hne
  refine ⟨i, hi, heq, ?_, ?_⟩
  · intro j hj
    exact Real.sqrt_le_sqrt (by exact_mod_cast hall j hj)
  · intro j hj hji
    apply Real.sqrt_lt_sqrt
    · have : (0 : ℚ) ≤ sqDist lat lon (table.get ⟨i, hi⟩).2 := by
        rw [sqDist]
        positivity
      exact_mod_cast this
    · exact_mod_cast hfirst j hj hji

theorem C8_witness :
    ∃ (i : ℕ) (hi : i < NODE_COORDS.length),
      nearestNode NODE_COORDS (-26) 28 = some (NODE_COORDS.get ⟨i, hi⟩).1 ∧
      (∀ j (hj : j < NODE_COORDS.length),
        Real.sqrt ((sqDist (-26) 28 (NODE_COORDS.get ⟨i, hi⟩).2 : ℚ) : ℝ) ≤
          Real.sqrt ((sqDist (-26) 28 (NODE_COORDS.get ⟨j, hj⟩).2 : ℚ) : ℝ)) ∧
      (∀ j (hj : j < NODE_COORDS.length), j < i →
        Real.sqrt ((sqDist (-26) 28 (NODE_COORDS.get ⟨i, hi⟩).2 : ℚ) : ℝ) <
          Real.sqrt ((sqDist (-26) 28 (NODE_COORDS.get ⟨j, hj⟩).2 : ℚ) : ℝ)) :=
  C8_nearest_euclidean NODE_COORDS (-26) 28 (by decide)


/-! ## Claim C9: the MinHeap invariant -/

/-- Parent-form characterisation of the heap order (decidable on concrete
heaps). -/
theorem heapOrd_iff (l : List Entry) :
    HeapOrd l ↔ ∀ j, j < l.length → 0 < j → prio l ((j + 1) / 2 - 1) ≤ prio l j := by
  constructor
  · intro h j hj hj0
    exact h _ j (childOf_parent hj0) hj
  · intro h i j hc hj
    have hij := childOf_lt hc
    have := childOf_unique hc
    subst this
    exact h j hj (by omega)

/-- Claim C9: `MinHeap` maintains the binary min-heap order on priorities
(element `0` of each entry) as an invariant preserved by every `push` and
every `pop`; when the heap is non-empty, `pop` succeeds and returns an
entry of minimal priority among the stored entries; `pop` on an empty heap
returns `null`. -/
theorem C9_minheap_invariant (h : List Entry) (item : Entry) (hh : HeapOrd h) :
    HeapOrd (heapPush h item) ∧
    (∀ e h', heapPop h = some (e, h') →
      HeapOrd h' ∧ e ∈ h ∧ ∀ x ∈ h, e.1 ≤ x.1) ∧
    heapPop ([] : List Entry) = none ∧
    (h ≠ [] → ∃ e h', heapPop h = some (e, h')) := by
  refine ⟨heapPush_heapOrd hh item, ?_, rfl, ?_⟩
  · intro e h' hp
    refine ⟨heapPop_heapOrd hh hp, ?_, heapPop_min hh hp⟩
    exact (heapPop_perm hp).mem_iff.mpr (List.mem_cons_self e h')
  · intro hne
    cases hp : heapPop h with
    | none => exact absurd ((heapPop_none_iff h).mp hp) hne
    | some r =>
      obtain ⟨e, h2⟩ := r
      exact ⟨e, h2, rfl⟩

theorem C9_witness :
    HeapOrd (heapPush [(1, "A"), (3, "B"), (2, "C")] (0, "D")) ∧
    heapPop ([] : List Entry) = none := by
  obtain ⟨h1, -, h3, -⟩ := C9_minheap_invariant [(1, "A"), (3, "B"), (2, "C")]
    (0, "D") ((heapOrd_iff _).mpr (by decide))
  exact ⟨h1, h3⟩


/-! ## Claim C6 (amended): src = dst round trip -/

theorem loopFuel_succ (g : Graph) (dst : Node) (fuel : ℕ) (st : DState) :
    loopFuel g dst (fuel + 1) st =
      match heapPop st.pq with
      | none => .done st
      | some ((d, u), pq') =>
        let st' : DState := ⟨st.dist, st.prev, pq'⟩
        if jsGT d (jget st'.dist u) then loopFuel g dst fuel st'
        else if u = dst then .done st'
        else
          match jget g u with
          | none => .typeErr
          | some edges => loopFuel g dst fuel (relaxEdges u d edges st') := rfl

theorem chase_succ (pm : List (Node × Option Node)) (fuel : ℕ)
    (u : Option (Option Node)) (acc : List Node) :
    chase pm (fuel + 1) u acc =
      match u with
      | some (some s) =>
        if s = "" then some acc else chase pm fuel (jget pm s) (s :: acc)
      | _ => some acc := rfl

theorem chase_null (pm : List (Node × Option Node)) (fuel : ℕ) (acc : List Node) :
    chase pm fuel (some none) acc = some acc := by
  cases fuel <;> rfl

theorem jget_initDist_self (g : Graph) (src : Node) :
    jget (initDist g src) src = some ((0 : ℕ) : WithTop ℕ) :=
  jget_jset_self _ _ _

theorem jget_initPrev (g : Graph) (s : Node) (hs : isKey g s) :
    jget (initPrev g) s = some none := by
  rw [initPrev, jget_initFold]
  rw [if_pos ((jget_isSome_iff_mem g s).mp hs)]

/-- Claim C6, amended to non-empty node identifiers: for every graph and
every node `s` present in it with `s ≠ ""`, `dijkstra(g, s, s)` returns
`Found([s], 0)`.  (For the legal key `s = ""` the reconstruction loop never
runs and the path is `[]`; see the counterexample.) -/
theorem C6_amended (g : Graph) (s : Node) (hs : isKey g s) (hne : s ≠ "") :
    dijkstraRun g s s = .found [s] (some ((0 : ℕ) : WithTop ℕ)) := by
  obtain ⟨f, hf⟩ : ∃ f, fuelBound g = f + 1 :=
    ⟨1 + (g.map (fun p => p.2.length)).sum, by rw [fuelBound]; omega⟩
  rw [dijkstraRun, dijkstra, hf]
  have hd : jget (initState g s).dist s = some ((0 : ℕ) : WithTop ℕ) :=
    jget_initDist_self g s
  have h1 : loopFuel g s (f + 1) (initState g s) =
      .done ⟨(initState g s).dist, (initState g s).prev, []⟩ := by
    rw [loopFuel_succ]
    have hpq : heapPop (initState g s).pq = some ((0, s), []) := rfl
    rw [hpq]
    dsimp only
    rw [if_neg (by rw [hd]; simp [jsGT]), if_pos rfl]
  rw [h1]
  dsimp only
  rw [if_neg (by rw [hd]; simp)]
  have hp : jget (initState g s).prev s = some none := jget_initPrev g s hs
  obtain ⟨m, hm⟩ : ∃ m, (initState g s).prev.length + 1 = m + 1 := ⟨_, rfl⟩
  rw [hm, chase_succ]
  dsimp only
  rw [if_neg hne, hp, chase_null, hd]

theorem C6_amended_witness :
    dijkstraRun graph3 "E" "E" = .found ["E"] (some ((0 : ℕ) : WithTop ℕ)) :=
  C6_amended graph3 "E" (by decide) (by decide)


/-! ## The Dijkstra loop invariant -/

/-- The keys of the graph object. -/
def gkeys (g : Graph) : List Node := g.map Prod.fst

theorem jget_initDist (g : Graph) (src v : Node) :
    jget (initDist g src) v =
      if v = src then some ((0 : ℕ) : WithTop ℕ)
      else if v ∈ gkeys g then some ⊤ else none := by
  by_cases hv : v = src
  · subst hv
    rw [if_pos rfl, initDist, jget_jset_self]
  · rw [if_neg hv, initDist, jget_jset_ne _ _ _ _ hv, jget_initFold]
    rfl

theorem jget_initPrev_cases (g : Graph) (v : Node) :
    jget (initPrev g) v = if v ∈ gkeys g then some none else none := by
  rw [initPrev, jget_initFold]
  rfl

theorem jkeys_jset_not_mem {β : Type} (m : List (Node × β)) (k : Node) (v : β)
    (h : ¬ (jget m k).isSome) :
    (jset m k v).map Prod.fst = m.map Prod.fst ++ [k] := by
  induction m with
  | nil => simp [jset]
  | cons hd t ih =>
    obtain ⟨k', v'⟩ := hd
    by_cases hk : k' = k
    · subst hk
      simp [jget] at h
    · simp [jget, hk] at h
      simp [jset, hk, ih (by simp [h])]

theorem jkeys_nodup_jset {β : Type} (m : List (Node × β)) (k : Node) (v : β)
    (h : (m.map Prod.fst).Nodup) : ((jset m k v).map Prod.fst).Nodup := by
  by_cases hm : (jget m k).isSome
  · rw [jkeys_jset_mem _ _ _ hm]
    exact h
  · rw [jkeys_jset_not_mem _ _ _ hm]
    rw [List.nodup_append]
    refine ⟨h, List.nodup_singleton k, ?_⟩
    intro a ha hb
    simp at hb
    subst hb
    exact hm ((jget_isSome_iff_mem m a).mpr ha)

theorem jkeys_initFold_nodup {β : Type} (keys : List Node) (v : β) :
    ∀ m0 : List (Node × β), (m0.map Prod.fst).Nodup →
      ((keys.foldl (fun m n => jset m n v) m0).map Prod.fst).Nodup := by
  induction keys with
  | nil => intro m0 h; exact h
  | cons a t ih =>
    intro m0 h
    exact ih _ (jkeys_nodup_jset m0 a v h)

theorem initDist_keys_nodup (g : Graph) (src : Node) :
    ((initDist g src).map Prod.fst).Nodup :=
  jkeys_nodup_jset _ _ _ (jkeys_initFold_nodup _ _ [] (by simp))

theorem mem_initDist_keys (g : Graph) (src v : Node) :
    v ∈ (initDist g src).map Prod.fst ↔ v ∈ gkeys g ∨ v = src := by
  rw [← jget_isSome_iff_mem, jget_initDist]
  by_cases h1 : v = src
  · simp [h1]
  · by_cases h2 : v ∈ gkeys g <;> simp [h1, h2]

theorem mem_initPrev_keys (g : Graph) (v : Node) :
    v ∈ (initPrev g).map Prod.fst ↔ v ∈ gkeys g := by
  rw [← jget_isSome_iff_mem, jget_initPrev_cases]
  by_cases h2 : v ∈ gkeys g <;> simp [h2]

theorem isKey_iff_mem_gkeys (g : Graph) (v : Node) :
    isKey g v ↔ v ∈ gkeys g := by
  rw [isKey, jget_isSome_iff_mem]
  rfl

/-- Occurrence count of one entry in the heap array. -/
def ecount (e : Entry) (l : List Entry) : ℕ := l.countP (fun x => x = e)

theorem ecount_perm {l l' : List Entry} (h : l.Perm l') (e : Entry) :
    ecount e l = ecount e l' := h.countP_eq _

theorem ecount_cons (e x : Entry) (l : List Entry) :
    ecount e (x :: l) = ecount e l + (if x = e then 1 else 0) := by
  rw [ecount, List.countP_cons, ecount]
  simp

theorem ecount_pos_of_mem {e : Entry} {l : List Entry} (h : e ∈ l) :
    1 ≤ ecount e l := by
  rw [ecount]
  refine List.countP_pos_iff.mpr ⟨e, h, by simp⟩

theorem ecount_le_length (e : Entry) (l : List Entry) : ecount e l ≤ l.length :=
  List.countP_le_length _

/-- All invariant clauses of the main loop except the relaxation
completeness of settled nodes (which is only partially true in the middle
of the edge loop).  `S` is the ghost list of settled (processed) nodes in
processing order. -/
structure PreInv (g : Graph) (src : Node) (st : DState) (S : List Node) : Prop where
  snodup : S.Nodup
  skeys : ∀ u ∈ S, isKey g u
  dkeys : st.dist.map Prod.fst = (initDist g src).map Prod.fst
  pkeys : st.prev.map Prod.fst = (initPrev g).map Prod.fst
  dsrc : jget st.dist src = some ((0 : ℕ) : WithTop ℕ)
  psrc : isKey g src → jget st.prev src = some none
  settled : ∀ u ∈ S, jget st.dist u = some (delta g src u)
  distPath : ∀ v (n : ℕ), jget st.dist v = some ((n : ℕ) : WithTop ℕ) →
    ∃ p, PathTo g src p v n
  inHeap : ∀ w (n : ℕ), w ∉ S → jget st.dist w = some ((n : ℕ) : WithTop ℕ) →
    (n, w) ∈ st.pq
  heapDist : ∀ pr w, (pr, w) ∈ st.pq →
    ∃ dw, jget st.dist w = some dw ∧ dw ≤ ((pr : ℕ) : WithTop ℕ)
  heapPath : ∀ pr w, (pr, w) ∈ st.pq → ∃ p, PathTo g src p w pr
  uniq : ∀ w (n : ℕ), jget st.dist w = some ((n : ℕ) : WithTop ℕ) →
    ecount (n, w) st.pq ≤ 1
  stale : ∀ pr w, (pr, w) ∈ st.pq → w ∈ S →
    jget st.dist w ≠ some ((pr : ℕ) : WithTop ℕ)
  hord : HeapOrd st.pq
  plink : ∀ v u, jget st.prev v = some (some u) →
    u ∈ S ∧ ∃ e ∈ edgesOf g u, e.target = v ∧
      jget st.dist v = some (delta g src u + (e.cost : WithTop ℕ))
  prank : ∀ v u, jget st.prev v = some (some u) → v ∈ S →
    S.indexOf u < S.indexOf v
  flink : ∀ v (n : ℕ), v ≠ src → jget st.dist v = some ((n : ℕ) : WithTop ℕ) →
    ∃ u, jget st.prev v = some (some u)

/-- The full loop invariant: additionally, all edges out of settled nodes
have been relaxed. -/
structure Inv (g : Graph) (src : Node) (st : DState) (S : List Node)
    extends PreInv g src st S : Prop where
  settledRelax : ∀ u ∈ S, ∀ e ∈ edgesOf g u, ∀ dv,
    jget st.dist e.target = some dv → dv ≤ delta g src u + (e.cost : WithTop ℕ)


theorem withTop_cases (x : WithTop ℕ) :
    x = ⊤ ∨ ∃ b : ℕ, x = ((b : ℕ) : WithTop ℕ) := by
  cases x with
  | top => exact Or.inl rfl
  | coe b => exact Or.inr ⟨b, rfl⟩

/-- The invariant holds on entry to the main loop. -/
theorem inv_init (g : Graph) (src : Node) : Inv g src (initState g src) [] := by
  have hpq : (initState g src).pq = [(0, src)] := rfl
  have hdist : ∀ v, jget (initState g src).dist v = jget (initDist g src) v :=
    fun v => rfl
  have hprev : ∀ v, jget (initState g src).prev v = jget (initPrev g) v :=
    fun v => rfl
  have hdistPath : ∀ v (n : ℕ),
      jget (initState g src).dist v = some ((n : ℕ) : WithTop ℕ) →
        v = src ∧ n = 0 := by
    intro v n h
    rw [hdist, jget_initDist] at h
    by_cases h1 : v = src
    · rw [if_pos h1] at h
      have := Option.some.inj h
      exact ⟨h1, by exact_mod_cast this.symm⟩
    · rw [if_neg h1] at h
      by_cases h2 : v ∈ gkeys g
      · rw [if_pos h2] at h
        exact absurd (Option.some.inj h) (WithTop.top_ne_natCast n)
      · rw [if_neg h2] at h
        cases h
  have hplinkNone : ∀ v x, jget (initState g src).prev v = some x → x = none := by
    intro v x h
    rw [hprev, jget_initPrev_cases] at h
    by_cases h2 : v ∈ gkeys g
    · rw [if_pos h2] at h
      exact (Option.some.inj h).symm
    · rw [if_neg h2] at h
      cases h
  refine
    { snodup := List.nodup_nil
      skeys := (by simp)
      dkeys := rfl
      pkeys := rfl
      dsrc := jget_initDist_self g src
      psrc := fun hs => jget_initPrev g src hs
      settled := (by simp)
      settledRelax := (by simp)
      distPath := ?_
      inHeap := ?_
      heapDist := ?_
      heapPath := ?_
      uniq := ?_
      stale := (by simp [hpq])
      hord := ?_
      plink := ?_
      prank := ?_
      flink := ?_ }
  · intro v n h
    obtain ⟨h1, h2⟩ := hdistPath v n h
    refine ⟨[v], ?_⟩
    rw [h1, h2]
    exact PathTo.single
  · intro w n hw h
    obtain ⟨h1, h2⟩ := hdistPath w n h
    rw [hpq, h1, h2]
    exact List.mem_singleton.mpr rfl
  · intro pr w hmem
    rw [hpq, List.mem_singleton] at hmem
    cases hmem
    exact ⟨((0 : ℕ) : WithTop ℕ), jget_initDist_self g src, le_rfl⟩
  · intro pr w hmem
    rw [hpq, List.mem_singleton] at hmem
    cases hmem
    exact ⟨[src], PathTo.single⟩
  · intro w n h
    rw [hpq]
    exact ecount_le_length _ _
  · rw [hpq]
    exact heapOrd_singleton _
  · intro v u h
    exact absurd (hplinkNone v _ h) (by simp)
  · intro v u h
    exact absurd (hplinkNone v _ h) (by simp)
  · intro v n hv h
    obtain ⟨h1, -⟩ := hdistPath v n h
    exact absurd h1 hv

theorem PreInv.dist_isSome {g : Graph} {src : Node} {st : DState} {S : List Node}
    (h : PreInv g src st S) (v : Node) (hv : isKey g v) :
    ∃ dv, jget st.dist v = some dv := by
  have hmem : v ∈ st.dist.map Prod.fst := by
    rw [h.dkeys, mem_initDist_keys]
    exact Or.inl ((isKey_iff_mem_gkeys g v).mp hv)
  exact Option.isSome_iff_exists.mp ((jget_isSome_iff_mem _ v).mpr hmem)

theorem PreInv.delta_le_dist {g : Graph} {src : Node} {st : DState} {S : List Node}
    (h : PreInv g src st S) {v : Node} {dv : WithTop ℕ}
    (hd : jget st.dist v = some dv) : delta g src v ≤ dv := by
  rcases withTop_cases dv with rfl | ⟨n, rfl⟩
  · exact le_top
  · obtain ⟨p, hp⟩ := h.distPath v n hd
    exact delta_le_weight hp


/-- The central lemma: a non-stale popped entry carries the exact shortest
distance of its node, and its node is not yet settled. -/
theorem popped_optimal {g : Graph} {src : Node} {st : DState} {S : List Node}
    (hg : Closed g) (hInv : Inv g src st S)
    {d : ℕ} {u : Node} {pq' : List Entry}
    (hpop : heapPop st.pq = some ((d, u), pq'))
    (hns : ¬ jsGT d (jget st.dist u) = true) :
    jget st.dist u = some ((d : ℕ) : WithTop ℕ) ∧
    ((d : ℕ) : WithTop ℕ) = delta g src u ∧ u ∉ S := by
  have hmem : (d, u) ∈ st.pq :=
    (heapPop_perm hpop).mem_iff.mpr (List.mem_cons_self _ _)
  obtain ⟨du, hdu, hle⟩ := hInv.heapDist d u hmem
  have hds : jget st.dist u = some ((d : ℕ) : WithTop ℕ) := by
    rw [hdu]
    congr 1
    rw [hdu] at hns
    have hnlt : ¬ du < ((d : ℕ) : WithTop ℕ) := by
      intro hlt
      exact hns (by simp [jsGT, hlt])
    exact le_antisymm hle (not_lt.mp hnlt)
  have hnotS : u ∉ S := fun hu => hInv.stale d u hmem hu hds
  refine ⟨hds, ?_, hnotS⟩
  have hdle : delta g src u ≤ ((d : ℕ) : WithTop ℕ) := hInv.delta_le_dist hds
  have hnd : ¬ delta g src u < ((d : ℕ) : WithTop ℕ) := by
    intro hlt
    have hreach : Reaches g src u :=
      delta_lt_top_iff.mp (lt_of_lt_of_le hlt le_top)
    obtain ⟨p, n, hp, hdn⟩ := delta_attained hreach
    have hnd : n < d := by
      rw [hdn] at hlt
      exact_mod_cast hlt
    by_cases hsrcS : src ∈ S
    · obtain ⟨x, e, p₁, n₁, hxS, htS, hex, hp₁, hsum⟩ :=
        path_frontier hp hnotS hsrcS
      have htk : isKey g e.target := by
        have hxkey : isKey g x := hInv.skeys x hxS
        obtain ⟨edges, hedges⟩ := Option.isSome_iff_exists.mp hxkey
        apply hg x edges hedges
        rwa [edgesOf, hedges] at hex
      obtain ⟨dv, hdv⟩ := hInv.dist_isSome e.target htk
      have hbound : dv ≤ delta g src x + (e.cost : WithTop ℕ) :=
        hInv.settledRelax x hxS e hex dv hdv
      have hchain : dv ≤ ((n : ℕ) : WithTop ℕ) := by
        calc dv ≤ delta g src x + (e.cost : WithTop ℕ) := hbound
        _ ≤ ((n₁ : ℕ) : WithTop ℕ) + (e.cost : WithTop ℕ) :=
            add_le_add_right (delta_le_weight hp₁) _
        _ = ((n₁ + e.cost : ℕ) : WithTop ℕ) := by push_cast; ring
        _ ≤ ((n : ℕ) : WithTop ℕ) := by exact_mod_cast hsum
      rcases withTop_cases dv with rfl | ⟨m, rfl⟩
      · simp at hchain
      · have hm : m < d := by
          have : m ≤ n := by exact_mod_cast hchain
          omega
        have hinh := hInv.inHeap e.target m htS hdv
        have hmin := heapPop_min hInv.hord hpop (m, e.target) hinh
        simp at hmin
        omega
    · have h0 : (0, src) ∈ st.pq := hInv.inHeap src 0 hsrcS hInv.dsrc
      have hmin := heapPop_min hInv.hord hpop (0, src) h0
      simp at hmin
      omega
  exact le_antisymm (not_lt.mp hnd) hdle


/-- Popping a stale entry preserves the invariant with the same settled
set. -/
theorem stale_step {g : Graph} {src : Node} {st : DState} {S : List Node}
    (hInv : Inv g src st S) {d : ℕ} {u : Node} {pq' : List Entry}
    (hpop : heapPop st.pq = some ((d, u), pq'))
    (hst : jsGT d (jget st.dist u) = true) :
    Inv g src ⟨st.dist, st.prev, pq'⟩ S := by
  have hperm := heapPop_perm hpop
  have hsub : ∀ e, e ∈ pq' → e ∈ st.pq := fun e he =>
    hperm.mem_iff.mpr (List.mem_cons_of_mem _ he)
  have hcount : ∀ e, ecount e pq' ≤ ecount e st.pq := by
    intro e
    rw [ecount_perm hperm e, ecount_cons]
    omega
  obtain ⟨du, hdu, hdlt⟩ : ∃ du, jget st.dist u = some du ∧
      du < ((d : ℕ) : WithTop ℕ) := by
    cases hx : jget st.dist u with
    | none => rw [hx] at hst; simp [jsGT] at hst
    | some du =>
      rw [hx] at hst
      simp only [jsGT, decide_eq_true_eq] at hst
      exact ⟨du, rfl, hst⟩
  refine
    { snodup := hInv.snodup
      skeys := hInv.skeys
      dkeys := hInv.dkeys
      pkeys := hInv.pkeys
      dsrc := hInv.dsrc
      psrc := hInv.psrc
      settled := hInv.settled
      settledRelax := hInv.settledRelax
      distPath := hInv.distPath
      inHeap := ?_
      heapDist := fun pr w h => hInv.heapDist pr w (hsub _ h)
      heapPath := fun pr w h => hInv.heapPath pr w (hsub _ h)
      uniq := fun w n h => le_trans (hcount _) (hInv.uniq w n h)
      stale := fun pr w h hw => hInv.stale pr w (hsub _ h) hw
      hord := heapPop_heapOrd hInv.hord hpop
      plink := hInv.plink
      prank := hInv.prank
      flink := hInv.flink }
  intro w n hw hdw
  have hold := hInv.inHeap w n hw hdw
  have : (n, w) ∈ (d, u) :: pq' := hperm.mem_iff.mp hold
  rcases List.mem_cons.mp this with heq | h
  · exfalso
    have hw' : w = u := (Prod.mk.injEq .. ▸ heq).2
    have hn' : n = d := (Prod.mk.injEq .. ▸ heq).1
    rw [hw', hdu] at hdw
    have : du = ((n : ℕ) : WithTop ℕ) := Option.some.inj hdw
    rw [this, hn'] at hdlt
    exact lt_irrefl _ hdlt
  · exact h

/-- After a non-stale pop of `u`, all clauses except full relaxation hold
with `u` appended to the settled list. -/
theorem process_pop_preinv {g : Graph} {src : Node} {st : DState} {S : List Node}
    (hg : Closed g) (hInv : Inv g src st S) {d : ℕ} {u : Node} {pq' : List Entry}
    (hpop : heapPop st.pq = some ((d, u), pq'))
    (hns : ¬ jsGT d (jget st.dist u) = true) (hukey : isKey g u) :
    PreInv g src ⟨st.dist, st.prev, pq'⟩ (S ++ [u]) := by
  obtain ⟨hds, hdelta, hnotS⟩ := popped_optimal hg hInv hpop hns
  have hperm := heapPop_perm hpop
  have hsub : ∀ e, e ∈ pq' → e ∈ st.pq := fun e he =>
    hperm.mem_iff.mpr (List.mem_cons_of_mem _ he)
  have hcount : ∀ e, ecount e pq' ≤ ecount e st.pq := by
    intro e
    rw [ecount_perm hperm e, ecount_cons]
    omega
  refine
    { snodup := ?_
      skeys := ?_
      dkeys := hInv.dkeys
      pkeys := hInv.pkeys
      dsrc := hInv.dsrc
      psrc := hInv.psrc
      settled := ?_
      distPath := hInv.distPath
      inHeap := ?_
      heapDist := fun pr w h => hInv.heapDist pr w (hsub _ h)
      heapPath := fun pr w h => hInv.heapPath pr w (hsub _ h)
      uniq := fun w n h => le_trans (hcount _) (hInv.uniq w n h)
      stale := ?_
      hord := heapPop_heapOrd hInv.hord hpop
      plink := ?_
      prank := ?_
      flink := hInv.flink }
  · rw [List.nodup_append]
    refine ⟨hInv.snodup, List.nodup_singleton u, ?_⟩
    intro a ha hb
    rw [List.mem_singleton] at hb
    subst hb
    exact hnotS ha
  · intro x hx
    rcases List.mem_append.mp hx with h | h
    · exact hInv.skeys x h
    · rw [List.mem_singleton] at h
      subst h
      exact hukey
  · intro x hx
    rcases List.mem_append.mp hx with h | h
    · exact hInv.settled x h
    · rw [List.mem_singleton] at h
      subst h
      rw [hds, hdelta]
  · intro w n hw hdw
    have hw' : w ∉ S := fun h => hw (List.mem_append.mpr (Or.inl h))
    have hwu : w ≠ u := fun h => hw (List.mem_append.mpr (Or.inr (by simp [h])))
    have hold := hInv.inHeap w n hw' hdw
    have : (n, w) ∈ (d, u) :: pq' := hperm.mem_iff.mp hold
    rcases List.mem_cons.mp this with heq | h
    · exact absurd (Prod.mk.injEq .. ▸ heq).2 hwu
    · exact h
  · intro pr w h hw
    rcases List.mem_append.mp hw with hS | hU
    · exact hInv.stale pr w (hsub _ h) hS
    · rw [List.mem_singleton] at hU
      subst hU
      intro hcontra
      have hprd : pr = d := by
        rw [hds] at hcontra
        exact_mod_cast (Option.some.inj hcontra).symm
      subst hprd
      have h2 : ecount (pr, w) st.pq ≥ 2 := by
        rw [ecount_perm hperm]
        have h1 : 1 ≤ ecount (pr, w) pq' := ecount_pos_of_mem h
        rw [ecount_cons]
        simp
        omega
      have := hInv.uniq w pr hcontra
      omega
  · intro v u' hpv
    obtain ⟨hu'S, rest⟩ := hInv.plink v u' hpv
    exact ⟨List.mem_append.mpr (Or.inl hu'S), rest⟩
  · intro v u' hpv hv
    obtain ⟨hu'S, -⟩ := hInv.plink v u' hpv
    have hidx : (S ++ [u]).indexOf u' = S.indexOf u' :=
      List.indexOf_append_of_mem hu'S
    rcases List.mem_append.mp hv with hvS | hvU
    · rw [hidx, List.indexOf_append_of_mem hvS]
      exact hInv.prank v u' hpv hvS
    · rw [List.mem_singleton] at hvU
      subst hvU
      rw [hidx, List.indexOf_append_of_not_mem hnotS]
      simp only [List.indexOf_cons_self, Nat.add_zero]
      exact List.indexOf_lt_length.mpr hu'S

theorem ecount_eq_zero_of_not_mem {e : Entry} {l : List Entry} (h : e ∉ l) :
    ecount e l = 0 := by
  rw [ecount]
  refine List.countP_eq_zero.mpr ?_
  intro x hx
  simp only [decide_eq_true_eq]
  intro hxe
  exact h (hxe ▸ hx)

/-- One edge relaxation preserves every `PreInv` clause, only lowers
distances, leaves the relaxed edge's target within the required bound, and
grows the heap by at most one entry. -/
theorem relaxOne_preinv {g : Graph} {src : Node} {st : DState} {S : List Node}
    (hg : Closed g) (hInv : PreInv g src st S) {u : Node} {d : ℕ}
    (hu : u ∈ S) (hdel : ((d : ℕ) : WithTop ℕ) = delta g src u)
    {e : Edge} (he : e ∈ edgesOf g u) :
    PreInv g src (relaxOne u d st e) S ∧
    (∀ w dw', jget (relaxOne u d st e).dist w = some dw' →
      ∃ dw, jget st.dist w = some dw ∧ dw' ≤ dw) ∧
    (∀ dv, jget (relaxOne u d st e).dist e.target = some dv →
      dv ≤ delta g src u + (e.cost : WithTop ℕ)) ∧
    (relaxOne u d st e).pq.length ≤ st.pq.length + 1 := by
  have hro : relaxOne u d st e =
      if jsLT (d + e.cost) (jget st.dist e.target) then
        ⟨jset st.dist e.target (((d + e.cost : ℕ)) : WithTop ℕ),
         jset st.prev e.target (some u),
         heapPush st.pq (d + e.cost, e.target)⟩
      else st := rfl
  have hdu : jget st.dist u = some ((d : ℕ) : WithTop ℕ) := by
    rw [hInv.settled u hu, hdel]
  have htk : isKey g e.target := by
    have hukey : isKey g u := hInv.skeys u hu
    obtain ⟨edges, hedges⟩ := Option.isSome_iff_exists.mp hukey
    apply hg u edges hedges
    rwa [edgesOf, hedges] at he
  have hcast : (((d + e.cost : ℕ)) : WithTop ℕ) = delta g src u + (e.cost : WithTop ℕ) := by
    rw [← hdel]
    push_cast
    ring
  by_cases hlt : jsLT (d + e.cost) (jget st.dist e.target) = true
  · rw [hro, if_pos hlt]
    obtain ⟨dvOld, hdvOld, haltlt⟩ : ∃ dvOld,
        jget st.dist e.target = some dvOld ∧
          (((d + e.cost : ℕ)) : WithTop ℕ) < dvOld := by
      cases hx : jget st.dist e.target with
      | none => rw [hx] at hlt; simp [jsLT] at hlt
      | some dv =>
        rw [hx] at hlt
        simp only [jsLT, decide_eq_true_eq] at hlt
        exact ⟨dv, rfl, hlt⟩
    have hvS : e.target ∉ S := by
      intro hvs
      have h1 : dvOld = delta g src e.target := by
        have := hInv.settled _ hvs
        rw [hdvOld] at this
        exact Option.some.inj this
      have h2 : delta g src e.target ≤ delta g src u + (e.cost : WithTop ℕ) :=
        delta_triangle e he
      rw [h1] at haltlt
      rw [← hcast] at h2
      exact absurd (lt_of_lt_of_le haltlt h2) (lt_irrefl _)
    have hvsrc : e.target ≠ src := by
      intro hvs
      rw [hvs, hInv.dsrc] at hdvOld
      have : dvOld = ((0 : ℕ) : WithTop ℕ) := (Option.some.inj hdvOld).symm
      rw [this] at haltlt
      exact absurd haltlt (by simp)
    have hsrcv : src ≠ e.target := fun h => hvsrc h.symm
    have huv : u ≠ e.target := by
      intro h
      exact hvS (h ▸ hu)
    have hdistSome : (jget st.dist e.target).isSome := by rw [hdvOld]; rfl
    have hprevSome : (jget st.prev e.target).isSome := by
      rw [jget_isSome_iff_mem, hInv.pkeys, ← jget_isSome_iff_mem]
      rw [jget_isSome_iff_mem, mem_initPrev_keys]
      exact (isKey_iff_mem_gkeys g _).mp htk
    have hdget : ∀ w, w ≠ e.target →
        jget (jset st.dist e.target (((d + e.cost : ℕ)) : WithTop ℕ)) w =
          jget st.dist w := fun w hw => jget_jset_ne _ _ _ _ hw
    have hdget_self :
        jget (jset st.dist e.target (((d + e.cost : ℕ)) : WithTop ℕ)) e.target =
          some (((d + e.cost : ℕ)) : WithTop ℕ) := jget_jset_self _ _ _
    have hpget : ∀ w, w ≠ e.target →
        jget (jset st.prev e.target (some u)) w = jget st.prev w :=
      fun w hw => jget_jset_ne _ _ _ _ hw
    have hpget_self : jget (jset st.prev e.target (some u)) e.target =
        some (some u) := jget_jset_self _ _ _
    have hpperm := heapPush_perm st.pq (d + e.cost, e.target)
    have hpmem : ∀ x, x ∈ heapPush st.pq (d + e.cost, e.target) ↔
        x = (d + e.cost, e.target) ∨ x ∈ st.pq := by
      intro x
      rw [hpperm.mem_iff, List.mem_cons]
    have hpathU : ∃ p, PathTo g src p u d := by
      apply hInv.distPath u d hdu
    obtain ⟨pU, hpU⟩ := hpathU
    have hpathV : PathTo g src (pU ++ [e.target]) e.target (d + e.cost) :=
      hpU.snoc e he
    refine ⟨?_, ?_, ?_, ?_⟩
    · refine
        { snodup := hInv.snodup
          skeys := hInv.skeys
          dkeys := ?_
          pkeys := ?_
          dsrc := ?_
          psrc := ?_
          settled := ?_
          distPath := ?_
          inHeap := ?_
          heapDist := ?_
          heapPath := ?_
          uniq := ?_
          stale := ?_
          hord := heapPush_heapOrd hInv.hord _
          plink := ?_
          prank := ?_
          flink := ?_ }
      · rw [jkeys_jset_mem _ _ _ hdistSome]
        exact hInv.dkeys
      · rw [jkeys_jset_mem _ _ _ hprevSome]
        exact hInv.pkeys
      · rw [hdget src hsrcv]
        exact hInv.dsrc
      · intro hs
        rw [hpget src hsrcv]
        exact hInv.psrc hs
      · intro x hx
        have hxv : x ≠ e.target := fun h => hvS (h ▸ hx)
        rw [hdget x hxv]
        exact hInv.settled x hx
      · intro w n hw
        by_cases hwv : w = e.target
        · subst hwv
          rw [hdget_self] at hw
          have hn : n = d + e.cost := by exact_mod_cast (Option.some.inj hw).symm
          exact ⟨pU ++ [e.target], hn ▸ hpathV⟩
        · rw [hdget w hwv] at hw
          exact hInv.distPath w n hw
      · intro w n hwS hw
        by_cases hwv : w = e.target
        · subst hwv
          rw [hdget_self] at hw
          have hn : n = d + e.cost := by exact_mod_cast (Option.some.inj hw).symm
          rw [hn]
          exact (hpmem _).mpr (Or.inl rfl)
        · rw [hdget w hwv] at hw
          exact (hpmem _).mpr (Or.inr (hInv.inHeap w n hwS hw))
      · intro pr w hmem
        rcases (hpmem _).mp hmem with heq | hold
        · have hw : w = e.target := (Prod.mk.injEq .. ▸ heq).2
          have hpr : pr = d + e.cost := (Prod.mk.injEq .. ▸ heq).1
          subst hw
          exact ⟨_, hdget_self, by rw [hpr]⟩
        · obtain ⟨dw, hdw, hdwle⟩ := hInv.heapDist pr w hold
          by_cases hwv : w = e.target
          · subst hwv
            refine ⟨_, hdget_self, ?_⟩
            have hdd : dw = dvOld := by
              rw [hdw] at hdvOld
              exact Option.some.inj hdvOld
            rw [← hdd] at haltlt
            exact le_trans (le_of_lt haltlt) hdwle
          · exact ⟨dw, by rw [hdget w hwv]; exact hdw, hdwle⟩
      · intro pr w hmem
        rcases (hpmem _).mp hmem with heq | hold
        · have hw : w = e.target := (Prod.mk.injEq .. ▸ heq).2
          have hpr : pr = d + e.cost := (Prod.mk.injEq .. ▸ heq).1
          subst hw
          exact ⟨pU ++ [e.target], hpr ▸ hpathV⟩
        · exact hInv.heapPath pr w hold
      · intro w n hw
        rw [ecount_perm hpperm, ecount_cons]
        by_cases hwv : w = e.target
        · subst hwv
          rw [hdget_self] at hw
          have hn : n = d + e.cost := by exact_mod_cast (Option.some.inj hw).symm
          have hnotm : (d + e.cost, e.target) ∉ st.pq := by
            intro hmem
            obtain ⟨dw, hdw, hdwle⟩ := hInv.heapDist _ _ hmem
            rw [hdvOld] at hdw
            have : dvOld = dw := Option.some.inj hdw
            rw [← this] at hdwle
            exact absurd (lt_of_lt_of_le haltlt hdwle) (lt_irrefl _)
          rw [hn, ecount_eq_zero_of_not_mem hnotm]
          simp
        · have h0 : ¬ ((d + e.cost, e.target) = (n, w)) := by
            intro h
            exact hwv ((Prod.mk.injEq .. ▸ h).2).symm
          rw [if_neg h0]
          rw [hdget w hwv] at hw
          have := hInv.uniq w n hw
          omega
      · intro pr w hmem hwS
        have hwv : w ≠ e.target := fun h => hvS (h ▸ hwS)
        rw [hdget w hwv]
        rcases (hpmem _).mp hmem with heq | hold
        · exact absurd (Prod.mk.injEq .. ▸ heq).2 hwv
        · exact hInv.stale pr w hold hwS
      · intro v' u' hpv
        by_cases hvv : v' = e.target
        · subst hvv
          rw [hpget_self] at hpv
          have hu' : u' = u := (Option.some.inj (Option.some.inj hpv)).symm
          subst hu'
          exact ⟨hu, e, he, rfl, by rw [hdget_self, hcast]⟩
        · rw [hpget v' hvv] at hpv
          obtain ⟨hu'S, e', he', het, hdv⟩ := hInv.plink v' u' hpv
          exact ⟨hu'S, e', he', het, by rw [hdget v' hvv]; exact hdv⟩
      · intro v' u' hpv hv'S
        have hvv : v' ≠ e.target := fun h => hvS (h ▸ hv'S)
        rw [hpget v' hvv] at hpv
        exact hInv.prank v' u' hpv hv'S
      · intro v' n hv'src hdv
        by_cases hvv : v' = e.target
        · subst hvv
          exact ⟨u, hpget_self⟩
        · rw [hdget v' hvv] at hdv
          obtain ⟨u', hu'⟩ := hInv.flink v' n hv'src hdv
          exact ⟨u', by rw [hpget v' hvv]; exact hu'⟩
    · intro w dw' hw
      by_cases hwv : w = e.target
      · subst hwv
        rw [hdget_self] at hw
        have : dw' = (((d + e.cost : ℕ)) : WithTop ℕ) := (Option.some.inj hw).symm
        exact ⟨dvOld, hdvOld, this ▸ le_of_lt haltlt⟩
      · rw [hdget w hwv] at hw
        exact ⟨dw', hw, le_rfl⟩
    · intro dv hdv
      rw [hdget_self] at hdv
      have : dv = (((d + e.cost : ℕ)) : WithTop ℕ) := (Option.some.inj hdv).symm
      rw [this, hcast]
    · show (heapPush st.pq (d + e.cost, e.target)).length ≤ st.pq.length + 1
      exact Nat.le_of_eq (by rw [hpperm.length_eq]; rfl)
  · rw [hro, if_neg hlt]
    refine ⟨hInv, fun w dw' hw => ⟨dw', hw, le_rfl⟩, ?_, Nat.le_succ _⟩
    intro dv hdv
    rw [hdv] at hlt
    simp only [jsLT, decide_eq_true_eq] at hlt
    have hnlt : ¬ (((d + e.cost : ℕ)) : WithTop ℕ) < dv := fun h => hlt h
    rw [← hcast]
    exact not_lt.mp hnlt

/-- The whole edge loop preserves `PreInv`, only lowers distances, leaves
every relaxed target within its bound, and grows the heap by at most the
number of edges relaxed. -/
theorem relaxEdges_preinv {g : Graph} {src : Node} {S : List Node} {u : Node}
    {d : ℕ} (hg : Closed g) (hu : u ∈ S)
    (hdel : ((d : ℕ) : WithTop ℕ) = delta g src u) :
    ∀ (todo : List Edge), (∀ e ∈ todo, e ∈ edgesOf g u) →
      ∀ st, PreInv g src st S →
      PreInv g src (relaxEdges u d todo st) S ∧
      (∀ w dw', jget (relaxEdges u d todo st).dist w = some dw' →
        ∃ dw, jget st.dist w = some dw ∧ dw' ≤ dw) ∧
      (∀ e ∈ todo, ∀ dv, jget (relaxEdges u d todo st).dist e.target = some dv →
        dv ≤ delta g src u + (e.cost : WithTop ℕ)) ∧
      (relaxEdges u d todo st).pq.length ≤ st.pq.length + todo.length := by
  intro todo
  induction todo with
  | nil =>
    intro _ st hInv
    exact ⟨hInv, fun w dw' h => ⟨dw', h, le_rfl⟩, by simp, by simp [relaxEdges]⟩
  | cons e rest ih =>
    intro htodo st hInv
    have he : e ∈ edgesOf g u := htodo e (List.mem_cons_self _ _)
    obtain ⟨h1, h2, h3, h4⟩ := relaxOne_preinv hg hInv hu hdel he
    have hrest : ∀ e' ∈ rest, e' ∈ edgesOf g u :=
      fun e' h => htodo e' (List.mem_cons_of_mem _ h)
    obtain ⟨k1, k2, k3, k4⟩ := ih hrest (relaxOne u d st e) h1
    have hfold : relaxEdges u d (e :: rest) st =
        relaxEdges u d rest (relaxOne u d st e) := rfl
    rw [hfold]
    refine ⟨k1, ?_, ?_, ?_⟩
    · intro w dw' hw
      obtain ⟨dmid, hmid, hle1⟩ := k2 w dw' hw
      obtain ⟨dw, hdw, hle2⟩ := h2 w dmid hmid
      exact ⟨dw, hdw, le_trans hle1 hle2⟩
    · intro e' he' dv hdv
      rcases List.mem_cons.mp he' with rfl | hmem
      · obtain ⟨dmid, hmid, hle1⟩ := k2 _ dv hdv
        exact le_trans hle1 (h3 dmid hmid)
      · exact k3 e' hmem dv hdv
    · calc (relaxEdges u d rest (relaxOne u d st e)).pq.length
          ≤ (relaxOne u d st e).pq.length + rest.length := k4
      _ ≤ st.pq.length + 1 + rest.length := by omega
      _ = st.pq.length + (e :: rest).length := by rw [List.length_cons]; omega

/-- Processing a non-stale popped node restores the full invariant with the
node appended to the settled list; the heap grows by strictly less than the
node's out-degree. -/
theorem process_step {g : Graph} {src : Node} {st : DState} {S : List Node}
    (hg : Closed g) (hInv : Inv g src st S) {d : ℕ} {u : Node} {pq' : List Entry}
    (hpop : heapPop st.pq = some ((d, u), pq'))
    (hns : ¬ jsGT d (jget st.dist u) = true)
    {edges : List Edge} (hedges : jget g u = some edges) :
    Inv g src (relaxEdges u d edges ⟨st.dist, st.prev, pq'⟩) (S ++ [u]) ∧
    (relaxEdges u d edges ⟨st.dist, st.prev, pq'⟩).pq.length + 1 ≤
      st.pq.length + edges.length := by
  have hukey : isKey g u := by
    rw [isKey, hedges]
    rfl
  have hpre := process_pop_preinv hg hInv hpop hns hukey
  obtain ⟨hds, hdelta, hnotS⟩ := popped_optimal hg hInv hpop hns
  have hu' : u ∈ S ++ [u] := List.mem_append.mpr (Or.inr (List.mem_singleton.mpr rfl))
  have hE : edgesOf g u = edges := by
    rw [edgesOf, hedges]
    rfl
  have htodo : ∀ e ∈ edges, e ∈ edgesOf g u := by
    rw [hE]
    exact fun e he => he
  obtain ⟨k1, k2, k3, k4⟩ := relaxEdges_preinv hg hu' hdelta edges htodo
    ⟨st.dist, st.prev, pq'⟩ hpre
  have hlen : st.pq.length = pq'.length + 1 := by
    rw [(heapPop_perm hpop).length_eq]
    rfl
  have hproj : (⟨st.dist, st.prev, pq'⟩ : DState).pq.length = pq'.length := rfl
  rw [hproj] at k4
  refine ⟨{ toPreInv := k1, settledRelax := ?_ }, by omega⟩
  intro x hx e he dv hdv
  rcases List.mem_append.mp hx with hxS | hxU
  · obtain ⟨dmid, hmid, hle⟩ := k2 e.target dv hdv
    have hmid' : jget st.dist e.target = some dmid := hmid
    exact le_trans hle (hInv.settledRelax x hxS e he dmid hmid')
  · rw [List.mem_singleton] at hxU
    subst hxU
    rw [hE] at he
    exact k3 e he dv hdv

/-- The termination measure of the main loop: heap size plus the total
out-degree of the unsettled keys. -/
def phi (g : Graph) (S : List Node) (st : DState) : ℕ :=
  st.pq.length +
    (((gkeys g).filter (fun v => decide (v ∉ S))).map
      (fun v => (edgesOf g v).length)).sum

theorem sum_filter_mono (f : Node → ℕ) (p q : Node → Bool)
    (hpq : ∀ v, p v = true → q v = true) :
    ∀ l : List Node, ((l.filter p).map f).sum ≤ ((l.filter q).map f).sum := by
  intro l
  induction l with
  | nil => simp
  | cons x t ih =>
    by_cases hp : p x = true
    · rw [List.filter_cons_of_pos hp, List.filter_cons_of_pos (hpq x hp)]
      simp only [List.map_cons, List.sum_cons]
      omega
    · rw [List.filter_cons_of_neg (by simp [hp])]
      by_cases hq : q x = true
      · rw [List.filter_cons_of_pos hq]
        simp only [List.map_cons, List.sum_cons]
        omega
      · rw [List.filter_cons_of_neg (by simp [hq])]
        exact ih

theorem sum_filter_drop (f : Node → ℕ) (S : List Node) (u : Node) (huS : u ∉ S) :
    ∀ l : List Node, u ∈ l →
      ((l.filter (fun v => decide (v ∉ S ++ [u]))).map f).sum + f u ≤
        ((l.filter (fun v => decide (v ∉ S))).map f).sum := by
  have hmono : ∀ v, decide (v ∉ S ++ [u]) = true → decide (v ∉ S) = true := by
    intro v h
    simp only [decide_eq_true_eq] at h
    simp only [decide_eq_true_eq]
    intro hv
    exact h (List.mem_append.mpr (Or.inl hv))
  intro l
  induction l with
  | nil => intro h; simp at h
  | cons x t ih =>
    intro hu
    by_cases hxu : x = u
    · subst hxu
      rw [List.filter_cons_of_neg (by simp)]
      rw [List.filter_cons_of_pos (by simp [huS])]
      simp only [List.map_cons, List.sum_cons]
      have hm := sum_filter_mono f _ _ hmono t
      omega
    · have hu' : u ∈ t := by
        rcases List.mem_cons.mp hu with h | h
        · exact absurd h.symm hxu
        · exact h
      by_cases hxS : x ∈ S
      · rw [List.filter_cons_of_neg
          (by simp [hxS])]
        rw [List.filter_cons_of_neg
          (by
            simp only [decide_eq_true_eq, not_not]
            exact hxS)]
        exact ih hu'
      · have hxn : x ∉ S ++ [u] := by
          intro h
          rcases List.mem_append.mp h with h | h
          · exact hxS h
          · rw [List.mem_singleton] at h
            exact hxu h
        rw [List.filter_cons_of_pos (by simp [hxn])]
        rw [List.filter_cons_of_pos (by simp [hxS])]
        simp only [List.map_cons, List.sum_cons]
        have := ih hu'
        omega

/-- Discarding a stale entry strictly decreases the measure. -/
theorem phi_stale {g : Graph} {S : List Node} {st : DState} {d : ℕ} {u : Node}
    {pq' : List Entry} (hpop : heapPop st.pq = some ((d, u), pq')) :
    phi g S ⟨st.dist, st.prev, pq'⟩ + 1 ≤ phi g S st := by
  have hlen : st.pq.length = pq'.length + 1 := by
    rw [(heapPop_perm hpop).length_eq]
    rfl
  unfold phi
  have hproj : (⟨st.dist, st.prev, pq'⟩ : DState).pq = pq' := rfl
  rw [hproj]
  omega

/-- Processing a non-stale popped node strictly decreases the measure. -/
theorem phi_process {g : Graph} {src : Node} {st : DState} {S : List Node}
    (hg : Closed g) (hInv : Inv g src st S) {d : ℕ} {u : Node} {pq' : List Entry}
    (hpop : heapPop st.pq = some ((d, u), pq'))
    (hns : ¬ jsGT d (jget st.dist u) = true)
    {edges : List Edge} (hedges : jget g u = some edges) :
    phi g (S ++ [u]) (relaxEdges u d edges ⟨st.dist, st.prev, pq'⟩) + 1 ≤
      phi g S st := by
  obtain ⟨-, -, hnotS⟩ := popped_optimal hg hInv hpop hns
  obtain ⟨-, hq⟩ := process_step hg hInv hpop hns hedges
  have hukey : isKey g u := by
    rw [isKey, hedges]
    rfl
  have humem : u ∈ gkeys g := (isKey_iff_mem_gkeys g u).mp hukey
  have hdrop := sum_filter_drop (fun v => (edgesOf g v).length) S u hnotS
    (gkeys g) humem
  have hE : edgesOf g u = edges := by
    rw [edgesOf, hedges]
    rfl
  simp only [hE] at hdrop
  unfold phi
  omega

/-- The last node of a path is the source or a key of the graph. -/
theorem pathTo_last_key {g : Graph} {src : Node} {p : List Node} {v : Node}
    {n : ℕ} (hg : Closed g) (h : PathTo g src p v n) : v = src ∨ isKey g v := by
  cases h with
  | single => exact Or.inl rfl
  | @snoc p' u m e hp he =>
    right
    cases hgu : jget g u with
    | none =>
      rw [edgesOf, hgu] at he
      simp at he
    | some edges =>
      apply hg u edges hgu
      rwa [edgesOf, hgu] at he

/-- Master lemma for the main loop: with fuel above the measure the loop
cannot time out, and a normal exit preserves the partial invariant and
either drained the heap (keeping the full invariant) or settled `dst`. -/
theorem loop_master {g : Graph} {src : Node} (hg : Closed g)
    (hsrck : isKey g src) (dst : Node) :
    ∀ (fuel : ℕ) (st : DState) (S : List Node), Inv g src st S →
      phi g S st < fuel →
      ∃ st' S', loopFuel g dst fuel st = .done st' ∧ PreInv g src st' S' ∧
        ((st'.pq = [] ∧ Inv g src st' S') ∨ dst ∈ S') := by
  intro fuel
  induction fuel with
  | zero =>
    intro st S hInv hphi
    exact absurd hphi (Nat.not_lt_zero _)
  | succ fuel ih =>
    intro st S hInv hphi
    cases hpop : heapPop st.pq with
    | none =>
      have hL : loopFuel g dst (fuel + 1) st = .done st := by
        rw [loopFuel_succ, hpop]
      exact ⟨st, S, hL, hInv.toPreInv,
        Or.inl ⟨(heapPop_none_iff _).mp hpop, hInv⟩⟩
    | some pr =>
      obtain ⟨⟨d, u⟩, pq'⟩ := pr
      have hukey : isKey g u := by
        have hmem : (d, u) ∈ st.pq :=
          (heapPop_perm hpop).mem_iff.mpr (List.mem_cons_self _ _)
        obtain ⟨p, hp⟩ := hInv.heapPath d u hmem
        rcases pathTo_last_key hg hp with rfl | hk
        · exact hsrck
        · exact hk
      by_cases hst : jsGT d (jget st.dist u) = true
      · have hL : loopFuel g dst (fuel + 1) st =
            loopFuel g dst fuel ⟨st.dist, st.prev, pq'⟩ := by
          rw [loopFuel_succ, hpop]
          dsimp only
          rw [if_pos hst]
        have hInv' := stale_step hInv hpop hst
        have hphi' : phi g S ⟨st.dist, st.prev, pq'⟩ < fuel := by
          have := phi_stale (g := g) (S := S) hpop
          omega
        rw [hL]
        exact ih _ S hInv' hphi'
      · by_cases hud : u = dst
        · have hL : loopFuel g dst (fuel + 1) st =
              .done ⟨st.dist, st.prev, pq'⟩ := by
            rw [loopFuel_succ, hpop]
            dsimp only
            rw [if_neg hst, if_pos hud]
          have hpre := process_pop_preinv hg hInv hpop hst hukey
          refine ⟨⟨st.dist, st.prev, pq'⟩, S ++ [u], hL, hpre, Or.inr ?_⟩
          rw [← hud]
          exact List.mem_append.mpr (Or.inr (List.mem_singleton.mpr rfl))
        · cases hgu : jget g u with
          | none =>
            exfalso
            rw [isKey, hgu] at hukey
            exact absurd hukey (by simp)
          | some edges =>
            have hL : loopFuel g dst (fuel + 1) st =
                loopFuel g dst fuel
                  (relaxEdges u d edges ⟨st.dist, st.prev, pq'⟩) := by
              rw [loopFuel_succ, hpop]
              dsimp only
              rw [if_neg hst, if_neg hud, hgu]
            have hInv' := (process_step hg hInv hpop hst hgu).1
            have hphi' :
                phi g (S ++ [u]) (relaxEdges u d edges ⟨st.dist, st.prev, pq'⟩) <
                  fuel := by
              have := phi_process hg hInv hpop hst hgu
              omega
            rw [hL]
            exact ih _ (S ++ [u]) hInv' hphi'

theorem jget_mem {β : Type} {m : List (Node × β)} {k : Node} {v : β}
    (h : jget m k = some v) : (k, v) ∈ m := by
  induction m with
  | nil => simp [jget] at h
  | cons hd t ih =>
    obtain ⟨k', v'⟩ := hd
    by_cases hk : k' = k
    · subst hk
      rw [jget, if_pos rfl] at h
      rw [← Option.some.inj h]
      exact List.mem_cons_self _ _
    · rw [jget, if_neg hk] at h
      exact List.mem_cons_of_mem _ (ih h)

/-- A decidable sufficient condition for the graph invariant on concrete
graphs: every edge of every entry targets a key. -/
theorem closed_of_forall_mem (g : Graph)
    (h : ∀ p ∈ g, ∀ e ∈ p.2, isKey g e.target) : Closed g := by
  intro u edges hu e he
  exact h (u, edges) (jget_mem hu) e he

theorem settled_le_prev {g : Graph} {src : Node} {st : DState} {S : List Node}
    (hpre : PreInv g src st S) : S.length ≤ st.prev.length := by
  have hsub : S ⊆ st.prev.map Prod.fst := by
    intro x hx
    have hk : isKey g x := hpre.skeys x hx
    rw [hpre.pkeys, mem_initPrev_keys]
    exact (isKey_iff_mem_gkeys g x).mp hk
  have hle := (List.subperm_of_subset hpre.snodup hsub).length_le
  rwa [List.length_map] at hle

/-- With the heap drained, every node of finite tentative distance is
settled. -/
theorem drained_settled {g : Graph} {src : Node} {st : DState} {S : List Node}
    (hInv : Inv g src st S) (hpq : st.pq = []) {w : Node} {n : ℕ}
    (hw : jget st.dist w = some ((n : ℕ) : WithTop ℕ)) : w ∈ S := by
  by_contra hws
  have := hInv.inHeap w n hws hw
  rw [hpq] at this
  simp at this

/-- With the heap drained, a reachable key cannot still be at `Infinity`. -/
theorem drained_reachable {g : Graph} {src : Node} {st : DState} {S : List Node}
    (hg : Closed g) (hInv : Inv g src st S) (hpq : st.pq = []) {dst : Node}
    (hr : Reaches g src dst)
    (htop : jget st.dist dst = some (⊤ : WithTop ℕ)) : False := by
  have hsrcS : src ∈ S := drained_settled hInv hpq hInv.dsrc
  have hdstS : dst ∉ S := by
    intro hdS
    have hset := hInv.settled dst hdS
    rw [htop] at hset
    have hdel : (⊤ : WithTop ℕ) = delta g src dst := Option.some.inj hset
    have := delta_lt_top_iff.mpr hr
    rw [← hdel] at this
    exact absurd this (lt_irrefl _)
  obtain ⟨p, n, hp⟩ := hr
  obtain ⟨x, e, p₁, n₁, hxS, htS, hex, hp₁, -⟩ := path_frontier hp hdstS hsrcS
  have htk : isKey g e.target := by
    have hxkey : isKey g x := hInv.skeys x hxS
    obtain ⟨edges, hedges⟩ := Option.isSome_iff_exists.mp hxkey
    apply hg x edges hedges
    rwa [edgesOf, hedges] at hex
  obtain ⟨dt, hdt⟩ := hInv.dist_isSome e.target htk
  have hbound : dt ≤ delta g src x + (e.cost : WithTop ℕ) :=
    hInv.settledRelax x hxS e hex dt hdt
  have hfin : dt < ⊤ := by
    have h1 : delta g src x ≤ ((n₁ : ℕ) : WithTop ℕ) := delta_le_weight hp₁
    have h2 : delta g src x + (e.cost : WithTop ℕ) ≤
        ((n₁ : ℕ) : WithTop ℕ) + (e.cost : WithTop ℕ) := add_le_add_right h1 _
    have h3 : ((n₁ : ℕ) : WithTop ℕ) + (e.cost : WithTop ℕ) =
        ((n₁ + e.cost : ℕ) : WithTop ℕ) := by push_cast; ring
    have h4 : dt ≤ ((n₁ + e.cost : ℕ) : WithTop ℕ) := by
      rw [← h3]
      exact le_trans hbound h2
    exact lt_of_le_of_lt h4 (WithTop.coe_lt_top _)
  rcases withTop_cases dt with rfl | ⟨m, rfl⟩
  · exact absurd hfin (lt_irrefl _)
  · exact htS (drained_settled hInv hpq hdt)

/-- At a normal loop exit the final tentative distance of `dst` is exactly
the shortest-path distance. -/
theorem exit_dist {g : Graph} {src dst : Node} {st : DState} {S : List Node}
    (hg : Closed g) (hdstk : isKey g dst)
    (hpre : PreInv g src st S)
    (hexit : (st.pq = [] ∧ Inv g src st S) ∨ dst ∈ S) :
    jget st.dist dst = some (delta g src dst) := by
  obtain ⟨dv, hdv⟩ := hpre.dist_isSome dst hdstk
  rcases hexit with ⟨hpq, hInv⟩ | hdS
  · rcases withTop_cases dv with rfl | ⟨n, rfl⟩
    · have hnr : ¬ Reaches g src dst := fun hr =>
        drained_reachable hg hInv hpq hr hdv
      have : delta g src dst = ⊤ := by rw [delta, if_neg hnr]
      rw [hdv, this]
    · have hdS : dst ∈ S := drained_settled hInv hpq hdv
      exact hInv.settled dst hdS
  · exact hpre.settled dst hdS

/-- Path reconstruction from a settled node with non-empty identifiers:
the `prev` chain walks back to the source and `chase` returns a path of
weight equal to the node's tentative distance. -/
theorem chase_settled {g : Graph} {src : Node} {st : DState} {S : List Node}
    (hpre : PreInv g src st S) (hsrck : isKey g src)
    (hks : ∀ k ∈ gkeys g, k ≠ "") :
    ∀ (N : ℕ) (v : Node), v ∈ S → S.indexOf v < N →
      ∀ n : ℕ, jget st.dist v = some ((n : ℕ) : WithTop ℕ) →
      ∀ fuel, S.indexOf v + 1 ≤ fuel → ∀ acc : List Node,
        ∃ q, chase st.prev fuel (some (some v)) acc = some (q ++ acc) ∧
          PathTo g src q v n := by
  intro N
  induction N with
  | zero =>
    intro v _ h
    exact absurd h (Nat.not_lt_zero _)
  | succ N ih =>
    intro v hvS hvN n hdv fuel hfuel acc
    have hvkey : isKey g v := hpre.skeys v hvS
    have hvne : v ≠ "" := hks v ((isKey_iff_mem_gkeys g v).mp hvkey)
    cases fuel with
    | zero => omega
    | succ fuel =>
      rw [chase_succ]
      dsimp only
      rw [if_neg hvne]
      by_cases hvsrc : v = src
      · subst hvsrc
        have hn0 : n = 0 := by
          rw [hpre.dsrc] at hdv
          exact_mod_cast (Option.some.inj hdv).symm
        rw [hpre.psrc hsrck, chase_null]
        exact ⟨[v], rfl, by rw [hn0]; exact PathTo.single⟩
      · obtain ⟨w, hw⟩ := hpre.flink v n hvsrc hdv
        obtain ⟨hwS, e, he, het, hdvsum⟩ := hpre.plink v w hw
        have hrank : S.indexOf w < S.indexOf v := hpre.prank v w hw hvS
        have hdw := hpre.settled w hwS
        have hsum : ((n : ℕ) : WithTop ℕ) =
            delta g src w + (e.cost : WithTop ℕ) := by
          rw [hdv] at hdvsum
          exact Option.some.inj hdvsum
        obtain ⟨m, hm⟩ : ∃ m : ℕ, delta g src w = ((m : ℕ) : WithTop ℕ) := by
          rcases withTop_cases (delta g src w) with htop | hfin
          · rw [htop] at hsum
            simp at hsum
          · exact hfin
        have hdwm : jget st.dist w = some ((m : ℕ) : WithTop ℕ) := by
          rw [hdw, hm]
        have hnm : m + e.cost = n := by
          rw [hm] at hsum
          have h2 : ((n : ℕ) : WithTop ℕ) = ((m + e.cost : ℕ) : WithTop ℕ) := by
            rw [hsum]
            push_cast
            ring
          exact_mod_cast h2.symm
        obtain ⟨q', hq', hpq'⟩ :=
          ih w hwS (by omega) m hdwm fuel (by omega) (v :: acc)
        rw [hw, hq']
        refine ⟨q' ++ [v], by rw [List.append_assoc]; rfl, ?_⟩
        have hsnoc := hpq'.snoc e he
        rw [het, hnm] at hsnoc
        exact hsnoc

/-- The reconstruction loop always terminates from a settled node, with or
without empty identifiers (an empty id just stops the walk early). -/
theorem chase_terminates {g : Graph} {src : Node} {st : DState} {S : List Node}
    (hpre : PreInv g src st S) (hsrck : isKey g src) :
    ∀ (N : ℕ) (v : Node), v ∈ S → S.indexOf v < N →
      ∀ n : ℕ, jget st.dist v = some ((n : ℕ) : WithTop ℕ) →
      ∀ fuel, S.indexOf v + 1 ≤ fuel → ∀ acc : List Node,
        ∃ r, chase st.prev fuel (some (some v)) acc = some r := by
  intro N
  induction N with
  | zero =>
    intro v _ h
    exact absurd h (Nat.not_lt_zero _)
  | succ N ih =>
    intro v hvS hvN n hdv fuel hfuel acc
    cases fuel with
    | zero => omega
    | succ fuel =>
      rw [chase_succ]
      dsimp only
      by_cases hvne : v = ""
      · rw [if_pos hvne]
        exact ⟨acc, rfl⟩
      · rw [if_neg hvne]
        by_cases hvsrc : v = src
        · subst hvsrc
          rw [hpre.psrc hsrck, chase_null]
          exact ⟨v :: acc, rfl⟩
        · obtain ⟨w, hw⟩ := hpre.flink v n hvsrc hdv
          obtain ⟨hwS, e, he, het, hdvsum⟩ := hpre.plink v w hw
          have hrank : S.indexOf w < S.indexOf v := hpre.prank v w hw hvS
          have hdw := hpre.settled w hwS
          have hsum : ((n : ℕ) : WithTop ℕ) =
              delta g src w + (e.cost : WithTop ℕ) := by
            rw [hdv] at hdvsum
            exact Option.some.inj hdvsum
          obtain ⟨m, hm⟩ : ∃ m : ℕ, delta g src w = ((m : ℕ) : WithTop ℕ) := by
            rcases withTop_cases (delta g src w) with htop | hfin
            · rw [htop] at hsum
              simp at hsum
            · exact hfin
          have hdwm : jget st.dist w = some ((m : ℕ) : WithTop ℕ) := by
            rw [hdw, hm]
          obtain ⟨r, hr⟩ :=
            ih w hwS (by omega) m hdwm fuel (by omega) (v :: acc)
          rw [hw, hr]
          exact ⟨r, rfl⟩

/-- With unique keys (JS object keys are unique) the per-key out-degrees
sum to the total edge count. -/
theorem sum_outdeg_nodup :
    ∀ (g : Graph), (gkeys g).Nodup →
      ((gkeys g).map (fun v => (edgesOf g v).length)).sum =
        (g.map (fun p => p.2.length)).sum := by
  intro g
  induction g with
  | nil => intro _; rfl
  | cons hd t ih =>
    intro hnd
    obtain ⟨k, es⟩ := hd
    have hg : gkeys ((k, es) :: t) = k :: gkeys t := rfl
    rw [hg] at hnd
    have hk : k ∉ gkeys t := (List.nodup_cons.mp hnd).1
    have hnd' : (gkeys t).Nodup := (List.nodup_cons.mp hnd).2
    have hself : edgesOf ((k, es) :: t) k = es := by
      simp [edgesOf, jget]
    have hcongr : (gkeys t).map (fun v => (edgesOf ((k, es) :: t) v).length) =
        (gkeys t).map (fun v => (edgesOf t v).length) := by
      apply List.map_congr_left
      intro v hv
      have hvk : ¬ k = v := fun h => hk (h ▸ hv)
      simp [edgesOf, jget, hvk]
    calc ((gkeys ((k, es) :: t)).map
          (fun v => (edgesOf ((k, es) :: t) v).length)).sum
        = es.length + ((gkeys t).map
            (fun v => (edgesOf ((k, es) :: t) v).length)).sum := by
          rw [hg]
          simp [hself]
      _ = es.length + ((gkeys t).map (fun v => (edgesOf t v).length)).sum := by
          rw [hcongr]
      _ = (((k, es) :: t).map (fun p => p.2.length)).sum := by
          rw [ih hnd']
          simp

/-- The initial measure is below the canonical fuel. -/
theorem phi_init_lt (g : Graph) (src : Node) (hnd : (gkeys g).Nodup) :
    phi g [] (initState g src) < fuelBound g := by
  unfold phi fuelBound
  have h1 : (initState g src).pq = [(0, src)] := rfl
  rw [h1]
  have h2 : (gkeys g).filter (fun v => decide (v ∉ ([] : List Node))) =
      gkeys g := by
    simp
  rw [h2, sum_outdeg_nodup g hnd]
  simp

theorem chase_undef (pm : List (Node × Option Node)) (fuel : ℕ)
    (acc : List Node) : chase pm fuel none acc = some acc := by
  cases fuel <;> rfl

/-- Claim C1, amended to unique non-empty node identifiers: on every
closed graph whose keys are distinct non-empty strings, with `src` and
`dst` both present, `dijkstra` returns `null` exactly when `dst` is
unreachable from `src`, and otherwise returns a directed path of the graph
from `src` to `dst` whose edge costs sum to the reported distance, the
minimum cost of any such path.  (An empty-string key on the route breaks
the reconstruction loop early: see the counterexample.) -/
theorem C1_amended (g : Graph) (src dst : Node) (hg : Closed g)
    (hnd : (gkeys g).Nodup) (hks : ∀ k ∈ gkeys g, k ≠ "")
    (hsrck : isKey g src) (hdstk : isKey g dst) :
    (dijkstraRun g src dst = .null ↔ ¬ Reaches g src dst) ∧
    (Reaches g src dst → ∃ (p : List Node) (n : ℕ),
      dijkstraRun g src dst = .found p (some ((n : ℕ) : WithTop ℕ)) ∧
      ((n : ℕ) : WithTop ℕ) = delta g src dst ∧ PathTo g src p dst n) := by
  obtain ⟨st', S', hL, hpre, hexit⟩ :=
    loop_master hg hsrck dst (fuelBound g) (initState g src) [] (inv_init g src)
      (phi_init_lt g src hnd)
  have hdd : jget st'.dist dst = some (delta g src dst) :=
    exit_dist hg hdstk hpre hexit
  have hfound : Reaches g src dst → ∃ (p : List Node) (n : ℕ),
      dijkstraRun g src dst = .found p (some ((n : ℕ) : WithTop ℕ)) ∧
      ((n : ℕ) : WithTop ℕ) = delta g src dst ∧ PathTo g src p dst n := by
    intro hr
    obtain ⟨n, hn⟩ : ∃ n : ℕ, delta g src dst = ((n : ℕ) : WithTop ℕ) := by
      rcases withTop_cases (delta g src dst) with htop | h
      · exact absurd (delta_lt_top_iff.mpr hr) (by rw [htop]; exact lt_irrefl _)
      · exact h
    have hdd' : jget st'.dist dst = some ((n : ℕ) : WithTop ℕ) := by
      rw [hdd, hn]
    have hdS : dst ∈ S' := by
      rcases hexit with ⟨hpq, hInv⟩ | h
      · exact drained_settled hInv hpq hdd'
      · exact h
    have hidx : S'.indexOf dst < S'.length := List.indexOf_lt_length.mpr hdS
    have hlen : S'.length ≤ st'.prev.length := settled_le_prev hpre
    obtain ⟨q, hq, hpath⟩ := chase_settled hpre hsrck hks (S'.indexOf dst + 1)
      dst hdS (Nat.lt_succ_self _) n hdd' (st'.prev.length + 1) (by omega) []
    rw [List.append_nil] at hq
    refine ⟨q, n, ?_, hn.symm, hpath⟩
    rw [dijkstraRun, dijkstra, hL]
    dsimp only
    rw [if_neg (by rw [hdd']; simp), hq, hdd']
  refine ⟨⟨?_, ?_⟩, hfound⟩
  · intro hnull hr
    obtain ⟨p, n, hf, -, -⟩ := hfound hr
    rw [hnull] at hf
    cases hf
  · intro hnr
    have hdtop : delta g src dst = ⊤ := by rw [delta, if_neg hnr]
    rw [dijkstraRun, dijkstra, hL]
    dsimp only
    rw [if_pos (by rw [hdd, hdtop])]

theorem C1_amended_witness :
    Closed graph1 ∧ (gkeys graph1).Nodup ∧ (∀ k ∈ gkeys graph1, k ≠ "") ∧
    isKey graph1 "A" ∧ isKey graph1 "G" ∧
    (dijkstraRun graph1 "A" "G" = .null ↔ ¬ Reaches graph1 "A" "G") :=
  ⟨closed_of_forall_mem _ (by decide), by decide, by decide, by decide,
    by decide,
    (C1_amended graph1 "A" "G" (closed_of_forall_mem _ (by decide))
      (by decide) (by decide) (by decide) (by decide)).1⟩

/-- Claim C10: on every closed graph with unique keys (JS object keys are
unique) and non-negative integer costs, `dijkstra` terminates: run with the
canonical fuel, neither the main loop nor the reconstruction loop exhausts
it, whatever `src` and `dst` are. -/
theorem C10_termination (g : Graph) (src dst : Node) (hg : Closed g)
    (hnd : (gkeys g).Nodup) : dijkstraRun g src dst ≠ .timeout := by
  by_cases hsrck : isKey g src
  · obtain ⟨st', S', hL, hpre, hexit⟩ :=
      loop_master hg hsrck dst (fuelBound g) (initState g src) []
        (inv_init g src) (phi_init_lt g src hnd)
    rw [dijkstraRun, dijkstra, hL]
    dsimp only
    by_cases htop : jget st'.dist dst = some (⊤ : WithTop ℕ)
    · rw [if_pos htop]
      simp
    · rw [if_neg htop]
      cases hdx : jget st'.dist dst with
      | none =>
        have hdk : dst ∉ st'.dist.map Prod.fst := by
          rw [← jget_isSome_iff_mem, hdx]
          simp
        have hdsrc : dst ≠ src := by
          intro h
          rw [h, hpre.dsrc] at hdx
          cases hdx
        have hdgk : dst ∉ gkeys g := by
          intro h
          apply hdk
          rw [hpre.dkeys, mem_initDist_keys]
          exact Or.inl h
        have hprev : jget st'.prev dst = none := by
          apply jget_eq_none_of_not_mem
          rw [hpre.pkeys, mem_initPrev_keys]
          exact hdgk
        obtain ⟨m, hm⟩ : ∃ m, st'.prev.length + 1 = m + 1 := ⟨_, rfl⟩
        rw [hm, chase_succ]
        dsimp only
        by_cases hde : dst = ""
        · rw [if_pos hde]
          simp
        · rw [if_neg hde, hprev, chase_undef]
          simp
      | some dv =>
        rcases withTop_cases dv with rfl | ⟨n, rfl⟩
        · exact absurd hdx htop
        · have hdS : dst ∈ S' := by
            rcases hexit with ⟨hpq, hInv⟩ | h
            · exact drained_settled hInv hpq hdx
            · exact h
          have hidx : S'.indexOf dst < S'.length := List.indexOf_lt_length.mpr hdS
          have hlen : S'.length ≤ st'.prev.length := settled_le_prev hpre
          obtain ⟨r, hr⟩ := chase_terminates hpre hsrck (S'.indexOf dst + 1)
            dst hdS (Nat.lt_succ_self _) n hdx (st'.prev.length + 1)
            (by omega) []
          rw [hr]
          simp
  · obtain ⟨f, hf⟩ : ∃ f, fuelBound g = f + 1 :=
      ⟨1 + (g.map (fun p => p.2.length)).sum, by rw [fuelBound]; omega⟩
    have hgu : jget g src = none := by
      cases h : jget g src with
      | none => rfl
      | some es => exact absurd (by rw [isKey, h]; rfl) hsrck
    have hd : jget (initState g src).dist src = some ((0 : ℕ) : WithTop ℕ) :=
      jget_initDist_self g src
    rw [dijkstraRun, dijkstra, hf]
    by_cases hsd : src = dst
    · have h1 : loopFuel g dst (f + 1) (initState g src) =
          .done ⟨(initState g src).dist, (initState g src).prev, []⟩ := by
        rw [loopFuel_succ]
        have hpq : heapPop (initState g src).pq = some ((0, src), []) := rfl
        rw [hpq]
        dsimp only
        rw [if_neg (by rw [hd]; simp [jsGT]), if_pos hsd]
      rw [h1]
      dsimp only
      rw [← hsd, if_neg (by rw [hd]; simp)]
      obtain ⟨m, hm⟩ : ∃ m, (initState g src).prev.length + 1 = m + 1 := ⟨_, rfl⟩
      rw [hm, chase_succ]
      dsimp only
      by_cases hse : src = ""
      · rw [if_pos hse]
        simp
      · have hprev : jget (initState g src).prev src = none := by
          apply jget_eq_none_of_not_mem
          show src ∉ (initPrev g).map Prod.fst
          rw [mem_initPrev_keys]
          intro h
          exact hsrck ((isKey_iff_mem_gkeys g src).mpr h)
        rw [if_neg hse, hprev, chase_undef]
        simp
    · have h1 : loopFuel g dst (f + 1) (initState g src) = .typeErr := by
        rw [loopFuel_succ]
        have hpq : heapPop (initState g src).pq = some ((0, src), []) := rfl
        rw [hpq]
        dsimp only
        rw [if_neg (by rw [hd]; simp [jsGT]), if_neg hsd, hgu]
      rw [h1]
      simp

theorem C10_witness :
    Closed graph1 ∧ (gkeys graph1).Nodup ∧
    dijkstraRun graph1 "A" "B" ≠ .timeout :=
  ⟨closed_of_forall_mem _ (by decide), by decide,
    C10_termination graph1 "A" "B" (closed_of_forall_mem _ (by decide))
      (by decide)⟩

end GeoRoute
